import Mathlib

/-!
Shallow embedding of the pupusolver core (pupusolver.go) and proofs about it.

The Go program works on a `[14][14]tile` array (a 12×12 playfield with a
one-cell padding ring); `get`/`set` translate playfield coordinates
(x, y) to raw array indices (y+1, x+1).  Go array accesses panic when an
index falls outside the array, so every grid access in this embedding
returns a result in a small error monad: `.oob` models an index-out-of-range
panic, and `.fuel` models exhaustion of the explicit fuel used to render
the source's unbounded loops structurally recursive (all theorems below are
stated so that their content is independent of the chosen fuel).
-/

namespace Pupu

/-- Result monad for the embedded Go code: `.ok` is a normal return, `.oob`
models a Go index-out-of-range panic, `.fuel` models running out of the
fuel that makes the source's loops structurally recursive. -/
inductive Res (α : Type) : Type where
  | ok : α → Res α
  | oob : Res α
  | fuel : Res α
deriving DecidableEq, Repr

namespace Res

def bind : Res α → (α → Res β) → Res β
  | .ok a, f => f a
  | .oob, _ => .oob
  | .fuel, _ => .fuel

instance : Monad Res where
  pure := Res.ok
  bind := Res.bind

end Res

/-- Tiles are a Go `int`-based enumeration: tile0 … tile8 are the nine game
pieces, then Wall, Background and Empty.  The Go zero value of `tile` is
`tile0`. -/
abbrev Tile := Int

def tile0 : Tile := 0
def tile1 : Tile := 1
def tile2 : Tile := 2
def tile3 : Tile := 3
def tile4 : Tile := 4
def tile5 : Tile := 5
def tile6 : Tile := 6
def tile7 : Tile := 7
def tile8 : Tile := 8
def tileWall : Tile := 9
def tileBg : Tile := 10
def tileEmpty : Tile := 11

/-- Translation of `tile.isMobile`: `t >= tile0 && t <= tile8`. -/
def isMobile (t : Tile) : Bool := tile0 ≤ t && t ≤ tile8

/-- Translation of `tile.isErasable`: `t >= tile0 && t <= tile7`. -/
def isErasable (t : Tile) : Bool := tile0 ≤ t && t ≤ tile7

/-- Raw grid: the Go value `tiles [playfieldH+2][playfieldW+2]tile`, i.e. a
14×14 array, embedded as a list of rows. -/
abbrev Grid := List (List Tile)

/-- Read `g[r][c]` with Go semantics: out-of-range indices panic (`.oob`). -/
def rawGet (g : Grid) (r c : Int) : Res Tile :=
  if 0 ≤ r ∧ 0 ≤ c then
    match g[r.toNat]? with
    | some row =>
      match row[c.toNat]? with
      | some t => .ok t
      | none => .oob
    | none => .oob
  else .oob

/-- Write `g[r][c] = t` with Go semantics: out-of-range indices panic. -/
def rawSet (g : Grid) (r c : Int) (t : Tile) : Res Grid :=
  if 0 ≤ r ∧ 0 ≤ c then
    match g[r.toNat]? with
    | some row =>
      if c.toNat < row.length then .ok (g.set r.toNat (row.set c.toNat t))
      else .oob
    | none => .oob
  else .oob

/-- Translation of `playfield.get`: `pf.tiles[y+1][x+1]`. -/
def pfGet (g : Grid) (x y : Int) : Res Tile := rawGet g (y + 1) (x + 1)

/-- Translation of `playfield.set`: `pf.tiles[y+1][x+1] = t`. -/
def pfSet (g : Grid) (x y : Int) (t : Tile) : Res Grid := rawSet g (y + 1) (x + 1) t

/-- Well-formed raw grid: the 14×14 shape of the Go array type. -/
def Wf (g : Grid) : Prop := g.length = 14 ∧ ∀ row ∈ g, row.length = 14

instance : DecidablePred Wf := fun g => by unfold Wf; infer_instance

/-- Playfield coordinates that the raw 14×14 array can address
(`x, y ∈ [-1, 12]`, i.e. the play area plus the one-cell padding ring). -/
def inB (x y : Int) : Prop := -1 ≤ x ∧ x ≤ 12 ∧ -1 ≤ y ∧ y ≤ 12

/-- Playfield coordinates inside the 12×12 play area. -/
def inner (x y : Int) : Prop := 0 ≤ x ∧ x ≤ 11 ∧ 0 ≤ y ∧ y ≤ 11

instance (x y : Int) : Decidable (inB x y) := by unfold inB; infer_instance
instance (x y : Int) : Decidable (inner x y) := by unfold inner; infer_instance

/-- Threaded left fold in the `Res` monad; used to express the source's
`for` loops over fixed index ranges. -/
def foldSt (step : σ → α → Res σ) : List α → σ → Res σ
  | [], s => pure s
  | a :: l, s => do foldSt step l (← step s a)

/-- Integer list `[0, 1, …, n-1]`, the ascending `for` ranges of the source. -/
def upList (n : Nat) : List Int := (List.range n).map Int.ofNat

/-- Integer list `[n, n-1, …, 1]`: the loop header
`for y := playfieldH - 1; y > 0; y--` of `dropTiles` iterates `rowsDown 11`. -/
def rowsDown : Nat → List Int
  | 0 => []
  | n + 1 => ((n + 1 : Nat) : Int) :: rowsDown n

/-- A position `pos{x, y}` from the source. -/
abbrev Pos := Int × Int

-- ================================================
-- Board construction (`fill`, `playfieldFromString`)

/-- Raw-index positions `(y, x)` for `y, x ∈ 0..11`, the ranges of the loops
in `playfield.fill` (which indexes `pf.tiles[y][x]` directly, without the
`+1` padding offset used by `get`/`set`). -/
def fillPos : List Pos := (upList 12).flatMap (fun y => (upList 12).map (fun x => ((y, x) : Pos)))

/-- Translation of `playfield.fill`: `pf.tiles[y][x] = t` for `y, x ∈ 0..11`
(raw indices — only the top-left 12×12 corner of the 14×14 array). -/
def fill (g : Grid) (t : Tile) : Res Grid := foldSt (fun g p => rawSet g p.1 p.2 t) fillPos g

/-- The zero value of the Go array type `[14][14]tile`: every cell is
`tile(0) = tile0`. -/
def zeroGrid : Grid := List.replicate 14 (List.replicate 14 tile0)

/-- Inner loop of `playfieldFromString`: `res.set(x, y, t)` for the tiles of
one line, with `x` counting up from 0. -/
def setRowData (g : Grid) (y : Int) : Int → List Tile → Res Grid
  | _, [] => pure g
  | x, t :: ts => do setRowData (← pfSet g x y t) y (x + 1) ts

/-- Outer loop of `playfieldFromString` over the level lines. -/
def setRowsData : Grid → Int → List (List Tile) → Res Grid
  | g, _, [] => pure g
  | g, y, row :: rows => do setRowsData (← setRowData g y 0 row) (y + 1) rows

/-- Translation of `playfieldFromString`, after the character-to-tile lookup:
a fresh zero-valued playfield is `fill`ed with `tileBg` and the 12×12 level
data is written through `set`.  (The bijective `charToTile` symbol table is
applied beforehand, so the input here is rows of tiles, not characters.) -/
def playfieldFromString (data : List (List Tile)) : Res Grid := do
  let g ← fill zeroGrid tileBg
  setRowsData g 0 data

/-- Valid level data for `playfieldFromString`: 12 lines of 12 characters,
each a key of `charToTile` (whose range is the 12 tile kinds `0..11`). -/
def ValidData (data : List (List Tile)) : Prop :=
  data.length = 12 ∧ ∀ row ∈ data, row.length = 12 ∧ ∀ t ∈ row, 0 ≤ t ∧ t ≤ 11

instance : DecidablePred ValidData := fun data => by unfold ValidData; infer_instance

-- ================================================
-- Moves and playfields

/-- Translation of `move`: `fromY, fromX` and a destination column `toX` on
the same row. -/
structure Move where
  fromY : Int
  fromX : Int
  toX : Int
deriving DecidableEq, Repr

/-- Translation of `playfield`: the 14×14 tile array plus the move history
`path`. -/
structure Playfield where
  tiles : Grid
  path : List Move
deriving DecidableEq, Repr

/-- Translation of `playfield.clone`: the tile array is a Go array value and
is copied by assignment; the path is copied into a fresh slice. -/
def clone (pf : Playfield) : Playfield := { tiles := pf.tiles, path := pf.path }

-- ================================================
-- Gravity pass (`dropTiles`)

/-- Fuel for the `for pf.get(x, y2+1) == tileEmpty { y2++ }` loop; on a
14-row grid the loop runs at most 13 times before the read itself panics. -/
def fallFuel : Nat := 16

/-- Translation of the fall loop of `dropTiles`: starting at `y2`, keep
incrementing `y2` while the cell below is Empty; return the final `y2`. -/
def fallDest (g : Grid) (x : Int) : Int → Nat → Res Int
  | _, 0 => .fuel
  | y2, n + 1 => do
      let t ← pfGet g x (y2 + 1)
      if t = tileEmpty then fallDest g x (y2 + 1) n else pure y2

/-- Translation of the body of the `dropTiles` double loop at cell `(x, y)`:
a mobile tile with Empty directly below falls to `fallDest` and `changed`
is set. -/
def dropStep (g : Grid) (ch : Bool) (y x : Int) : Res (Grid × Bool) := do
  let t ← pfGet g x y
  if isMobile t then do
    let below ← pfGet g x (y + 1)
    if below = tileEmpty then do
      let y2 ← fallDest g x y fallFuel
      let g1 ← pfSet g x y tileEmpty
      let g2 ← pfSet g1 x y2 t
      pure (g2, true)
    else pure (g, ch)
  else pure (g, ch)

/-- Translation of `dropTiles`: `y` runs `11, 10, …, 1` (the loop header is
`for y := playfieldH - 1; y > 0; y--`, so row 0 is never scanned) and `x`
runs `0 … 11`. -/
def dropTiles (g : Grid) : Res (Grid × Bool) :=
  foldSt (fun st y => foldSt (fun st x => dropStep st.1 st.2 y x) (upList 12) st)
    (rowsDown 11) (g, false)

-- ================================================
-- Removal pass (`extendTileset`, `removeTiles`)

/-- Fuel bounding the recursion depth of `extendTileset`; the depth is at
most one more than the number of in-bounds cells (196), since every level
of recursion first inserts a fresh cell into the set. -/
def floodFuel : Nat := 400

/-- Translation of `extendTileset`: flood fill of the 4-connected component
of equal tiles, accumulated in `set` (a Go `map[pos]bool`, modelled as a
duplicate-free list). -/
def extendTileset (g : Grid) (t : Tile) : Nat → Pos → List Pos → Res (List Pos)
  | 0, _, _ => .fuel
  | n + 1, p, set =>
    if p ∈ set then pure set
    else do
      let cur ← pfGet g p.1 p.2
      if cur = t then do
        let s1 ← extendTileset g t n (p.1 - 1, p.2) (p :: set)
        let s2 ← extendTileset g t n (p.1 + 1, p.2) s1
        let s3 ← extendTileset g t n (p.1, p.2 - 1) s2
        extendTileset g t n (p.1, p.2 + 1) s3
      else pure set

/-- Translation of the removal loop `for p := range set { pf.set(p.x, p.y,
tileEmpty) }` (the iteration order of a Go map is immaterial here because
every write stores the same value). -/
def clearCells (set : List Pos) (g : Grid) : Res Grid :=
  foldSt (fun g p => pfSet g p.1 p.2 tileEmpty) set g

/-- Translation of the body of the `removeTiles` double loop at `(x, y)`:
an erasable tile seeds a flood fill, and a component of size ≥ 2 is cleared
to Empty. -/
def removeStep (g : Grid) (ch : Bool) (y x : Int) : Res (Grid × Bool) := do
  let t ← pfGet g x y
  if isErasable t then do
    let set ← extendTileset g t floodFuel (x, y) []
    if 2 ≤ set.length then do
      let g2 ← clearCells set g
      pure (g2, true)
    else pure (g, ch)
  else pure (g, ch)

/-- Translation of `removeTiles`: `y` and `x` both run `0 … 11`. -/
def removeTiles (g : Grid) : Res (Grid × Bool) :=
  foldSt (fun st y => foldSt (fun st x => removeStep st.1 st.2 y x) (upList 12) st)
    (upList 12) (g, false)

-- ================================================
-- Transition engine (`apply`)

/-- Translation of the stabilization loop of `apply`: note that Go's
`changed = changed || pf2.removeTiles()` short-circuits, so `removeTiles`
only runs in an iteration whose `dropTiles` reported no change. -/
def applyLoop : Nat → Grid → Res Grid
  | 0, _ => .fuel
  | n + 1, g => do
      let (g1, ch1) ← dropTiles g
      if ch1 then applyLoop n g1
      else do
        let (g2, ch2) ← removeTiles g1
        if ch2 then applyLoop n g2
        else pure g2

/-- Translation of `playfield.apply`: clone, append the move to the path,
slide the tile from `(fromX, fromY)` to `(toX, fromY)`, then run gravity
and removal to a fixed point. -/
def apply (pf : Playfield) (m : Move) (fuel : Nat) : Res Playfield := do
  let pf2 := clone pf
  let path2 := pf2.path ++ [m]
  let y := m.fromY
  let t ← pfGet pf2.tiles m.fromX y
  let g1 ← pfSet pf2.tiles m.fromX y tileEmpty
  let g2 ← pfSet g1 m.toX y t
  let g3 ← applyLoop fuel g2
  pure { tiles := g3, path := path2 }

-- ================================================
-- Move generator (`possibleMoves`)

/-- Fuel for the `for pf.get(x2, y) == tileEmpty` loop of `possibleMoves`;
`x2` moves one column per iteration, so at most 14 iterations can read
successfully on a 14-column grid. -/
def moveFuel : Nat := 16

/-- Translation of the per-direction loop of `possibleMoves`: offer a move
to each consecutive Empty cell; after offering a candidate, stop if the
cell below it is Empty or holds the moving tile's own kind. -/
def movesDir (g : Grid) (t : Tile) (y x dirX : Int) : Int → Nat → Res (List Move)
  | _, 0 => .fuel
  | x2, n + 1 => do
      let c ← pfGet g x2 y
      if c = tileEmpty then do
        let below ← pfGet g x2 (y + 1)
        if below = tileEmpty ∨ below = t then pure [⟨y, x, x2⟩]
        else do
          let rest ← movesDir g t y x dirX (x2 + dirX) n
          pure (⟨y, x, x2⟩ :: rest)
      else pure []

/-- Translation of the body of the `possibleMoves` double loop at `(x, y)`:
a mobile tile generates its leftward moves, then its rightward moves
(`dirX` ranges over `{-1, 1}` in that order). -/
def movesStep (g : Grid) (acc : List Move) (y x : Int) : Res (List Move) := do
  let t ← pfGet g x y
  if isMobile t then do
    let l ← movesDir g t y x (-1) (x - 1) moveFuel
    let r ← movesDir g t y x 1 (x + 1) moveFuel
    pure (acc ++ l ++ r)
  else pure acc

/-- Translation of `possibleMoves`: `y` and `x` both run `0 … 11`. -/
def possibleMoves (g : Grid) : Res (List Move) :=
  foldSt (fun acc y => foldSt (fun acc x => movesStep g acc y x) (upList 12) acc)
    (upList 12) []

-- ================================================
-- Solvedness and solvability

/-- Play-area positions `(x, y)` for `y, x ∈ 0..11` in the scan order of
`isSolved`, `isSolvable` and `removeTiles` (`y` outer, `x` inner). -/
def playPos : List Pos := (upList 12).flatMap (fun y => (upList 12).map (fun x => ((x, y) : Pos)))

/-- Translation of `isSolved`: no cell of the play area holds a tile in
`tile0 … tile7`.  (Go returns early on the first such tile; the early
return only skips reads that cannot panic, so the result is the same.) -/
def isSolved (g : Grid) : Res Bool :=
  foldSt (fun b p => do
    let t ← pfGet g p.1 p.2
    pure (b && !(tile0 ≤ t && t ≤ tile7))) playPos true

/-- Translation of `isSolvable`: count the cells of each erasable kind
(`cnts[t]++` for `tile0 ≤ t ≤ tile7`), then report false iff some kind has
a count of exactly 1. -/
def isSolvable (g : Grid) : Res Bool := do
  let cnts ← foldSt (fun (cnts : Tile → Nat) p => do
      let t ← pfGet g p.1 p.2
      if tile0 ≤ t ∧ t ≤ tile7 then pure (fun k => if k = t then cnts k + 1 else cnts k)
      else pure cnts) playPos (fun _ => 0)
  pure ((upList 8).all (fun k => !(cnts k = 1)))

-- ================================================
-- Concrete boards

/-- Level data of the sample level (level 93) documented in `badLevelData`,
through the `charToTile` mapping: `H,D,T,R,1,S,2,F,G,#,P,. ↦ 0,…,8,9,10,11`. -/
def demoData : List (List Tile) :=
  [[10,10,10,10,10,10,10,10,10,10,10,10],
   [10,10,10,10,10,10,10,10,10,10,10,10],
   [10,10,10,10,10, 9, 9,10,10,10,10,10],
   [10,10,10,10, 9,11, 3, 9,10,10,10,10],
   [10,10,10, 9,11,11, 6, 3, 9,10,10,10],
   [10,10, 9,11,11,11, 5, 6, 7, 9,10,10],
   [10,10, 9,11,11,11, 7, 5, 4, 9,10,10],
   [10,10,10, 9,11,11, 4, 3, 9,10,10,10],
   [10,10,10,10, 9,11, 7, 9,10,10,10,10],
   [10,10,10,10,10, 9, 9,10,10,10,10,10],
   [10,10,10,10,10,10,10,10,10,10,10,10],
   [10,10,10,10,10,10,10,10,10,10,10,10]]

/-- Small test level: two Diamond tiles on a wall shelf with a one-cell gap. -/
def twoDData : List (List Tile) :=
  [[10,10,10,10,10,10,10,10,10,10,10,10],
   [10,10,10,10,10,10,10,10,10,10,10,10],
   [10,10,10,10,10,10,10,10,10,10,10,10],
   [10,10,10,10,10,10,10,10,10,10,10,10],
   [10,10,10,10,10,10,10,10,10,10,10,10],
   [10,10,10,10,10,10,10,10,10,10,10,10],
   [10,10,10,10,10,10,10,10,10,10,10,10],
   [10,10,10,10,10,10,10,10,10,10,10,10],
   [10,10,10,10,10,10,10,10,10,10,10,10],
   [10,10,10,10,10,10,10,10,10,10,10,10],
   [ 9, 1,11, 1, 9,10,10,10,10,10,10,10],
   [ 9, 9, 9, 9, 9, 9, 9, 9, 9, 9, 9, 9]]

/-- The raw grid built by `playfieldFromString twoDData`: the play area
sits at raw indices `[1..12][1..12]`, the filled part of the padding ring
holds `tileBg`, and the unfilled part keeps the zero value `tile0`. -/
def twoDG : Grid :=
  [[10,10,10,10,10,10,10,10,10,10,10,10, 0, 0],
   [10,10,10,10,10,10,10,10,10,10,10,10,10, 0],
   [10,10,10,10,10,10,10,10,10,10,10,10,10, 0],
   [10,10,10,10,10,10,10,10,10,10,10,10,10, 0],
   [10,10,10,10,10,10,10,10,10,10,10,10,10, 0],
   [10,10,10,10,10,10,10,10,10,10,10,10,10, 0],
   [10,10,10,10,10,10,10,10,10,10,10,10,10, 0],
   [10,10,10,10,10,10,10,10,10,10,10,10,10, 0],
   [10,10,10,10,10,10,10,10,10,10,10,10,10, 0],
   [10,10,10,10,10,10,10,10,10,10,10,10,10, 0],
   [10,10,10,10,10,10,10,10,10,10,10,10,10, 0],
   [10, 9, 1,11, 1, 9,10,10,10,10,10,10,10, 0],
   [ 0, 9, 9, 9, 9, 9, 9, 9, 9, 9, 9, 9, 9, 0],
   [ 0, 0, 0, 0, 0, 0, 0, 0, 0, 0, 0, 0, 0, 0]]

/-- The grid after applying the move `(1,10) → (2,10)` to `twoDG`: the two
Diamonds became adjacent and were removed. -/
def twoDAfterG : Grid :=
  [[10,10,10,10,10,10,10,10,10,10,10,10, 0, 0],
   [10,10,10,10,10,10,10,10,10,10,10,10,10, 0],
   [10,10,10,10,10,10,10,10,10,10,10,10,10, 0],
   [10,10,10,10,10,10,10,10,10,10,10,10,10, 0],
   [10,10,10,10,10,10,10,10,10,10,10,10,10, 0],
   [10,10,10,10,10,10,10,10,10,10,10,10,10, 0],
   [10,10,10,10,10,10,10,10,10,10,10,10,10, 0],
   [10,10,10,10,10,10,10,10,10,10,10,10,10, 0],
   [10,10,10,10,10,10,10,10,10,10,10,10,10, 0],
   [10,10,10,10,10,10,10,10,10,10,10,10,10, 0],
   [10,10,10,10,10,10,10,10,10,10,10,10,10, 0],
   [10, 9,11,11,11, 9,10,10,10,10,10,10,10, 0],
   [ 0, 9, 9, 9, 9, 9, 9, 9, 9, 9, 9, 9, 9, 0],
   [ 0, 0, 0, 0, 0, 0, 0, 0, 0, 0, 0, 0, 0, 0]]

def twoDMove : Move := ⟨10, 1, 2⟩

def twoDAfterPf : Playfield := ⟨twoDAfterG, [twoDMove]⟩

/-- The two-Diamond board right after the slide `(1,10) → (2,10)` and
before any removal pass: the two Diamonds are adjacent at `(2,10)` and
`(3,10)`. -/
def twoDSlidG : Grid :=
  [[10,10,10,10,10,10,10,10,10,10,10,10, 0, 0],
   [10,10,10,10,10,10,10,10,10,10,10,10,10, 0],
   [10,10,10,10,10,10,10,10,10,10,10,10,10, 0],
   [10,10,10,10,10,10,10,10,10,10,10,10,10, 0],
   [10,10,10,10,10,10,10,10,10,10,10,10,10, 0],
   [10,10,10,10,10,10,10,10,10,10,10,10,10, 0],
   [10,10,10,10,10,10,10,10,10,10,10,10,10, 0],
   [10,10,10,10,10,10,10,10,10,10,10,10,10, 0],
   [10,10,10,10,10,10,10,10,10,10,10,10,10, 0],
   [10,10,10,10,10,10,10,10,10,10,10,10,10, 0],
   [10,10,10,10,10,10,10,10,10,10,10,10,10, 0],
   [10, 9,11, 1, 1, 9,10,10,10,10,10,10,10, 0],
   [ 0, 9, 9, 9, 9, 9, 9, 9, 9, 9, 9, 9, 9, 0],
   [ 0, 0, 0, 0, 0, 0, 0, 0, 0, 0, 0, 0, 0, 0]]

/-- A move whose source cell `(0, 11)` of `twoDG` holds a Wall — not a
mobile tile, and not a move the generator can produce. -/
def wallMove : Move := ⟨11, 0, 1⟩

/-- Result of applying `wallMove` to the two-Diamond board: the Wall is
relocated like any tile; nothing is validated and no error is reported. -/
def wallMovedPf : Playfield :=
  ⟨[[10,10,10,10,10,10,10,10,10,10,10,10, 0, 0],
    [10,10,10,10,10,10,10,10,10,10,10,10,10, 0],
    [10,10,10,10,10,10,10,10,10,10,10,10,10, 0],
    [10,10,10,10,10,10,10,10,10,10,10,10,10, 0],
    [10,10,10,10,10,10,10,10,10,10,10,10,10, 0],
    [10,10,10,10,10,10,10,10,10,10,10,10,10, 0],
    [10,10,10,10,10,10,10,10,10,10,10,10,10, 0],
    [10,10,10,10,10,10,10,10,10,10,10,10,10, 0],
    [10,10,10,10,10,10,10,10,10,10,10,10,10, 0],
    [10,10,10,10,10,10,10,10,10,10,10,10,10, 0],
    [10,10,10,10,10,10,10,10,10,10,10,10,10, 0],
    [10, 9, 1,11, 1, 9,10,10,10,10,10,10,10, 0],
    [ 0,11, 9, 9, 9, 9, 9, 9, 9, 9, 9, 9, 9, 0],
    [ 0, 0, 0, 0, 0, 0, 0, 0, 0, 0, 0, 0, 0, 0]],
   [wallMove]⟩

-- ================================================
-- Specification-side definitions (used to state the claims)

/-- Orthogonal neighbours of a position, in the order `extendTileset`
visits them. -/
def nbrs (p : Pos) : List Pos := [(p.1 - 1, p.2), (p.1 + 1, p.2), (p.1, p.2 - 1), (p.1, p.2 + 1)]

/-- Spec-side definition of the maximal 4-connected equal-kind component:
`q` is reachable from `p` by steps onto orthogonally adjacent cells that
hold tile `t`. -/
def ReachComp (g : Grid) (t : Tile) (p q : Pos) : Prop :=
  Relation.ReflTransGen (fun a b => b ∈ nbrs a ∧ pfGet g b.1 b.2 = .ok t) p q

/-- Raw coordinates of the one-cell padding ring around the 12×12 play
area. -/
def borderCell (r c : Int) : Prop :=
  (r = 0 ∨ r = 13 ∨ c = 0 ∨ c = 13) ∧ 0 ≤ r ∧ r ≤ 13 ∧ 0 ≤ c ∧ c ≤ 13

/-- The value each padding-ring cell actually holds after construction:
`tileBg` where `fill` reached (its loops cover raw indices `0..11` only)
and the zero value `tile0` everywhere else.  No border cell ever holds
`tileWall`. -/
def borderVal (r c : Int) : Tile :=
  if (r = 0 ∨ c = 0) ∧ r ≤ 11 ∧ c ≤ 11 then tileBg else tile0

/-- The padding ring holds exactly its constructed values. -/
def BorderOK (g : Grid) : Prop := ∀ r c, borderCell r c → rawGet g r c = .ok (borderVal r c)

/-- Boards as produced by the level loader and preserved by the engine. -/
def Good (g : Grid) : Prop := Wf g ∧ BorderOK g

instance (r c : Int) : Decidable (borderCell r c) := by unfold borderCell; infer_instance

/-- Spec-side definition of the generator's stopping test for a candidate
destination column `c` on row `y`: the cell below the candidate is Empty
(the tile would fall off a ledge) or holds the moving tile's own kind. -/
def stopBelow (g : Grid) (t : Tile) (y c : Int) : Prop :=
  pfGet g c (y + 1) = .ok tileEmpty ∨ pfGet g c (y + 1) = .ok t

instance (g : Grid) (t : Tile) (y c : Int) : Decidable (stopBelow g t y c) := by
  unfold stopBelow; infer_instance

/-- The contribution of the cell `(x, y)` to `possibleMoves`: the moves of
its leftward then rightward scan (empty when the cell is not mobile). -/
def genAt (g : Grid) (y x : Int) (m : Move) : Prop :=
  ∃ t, pfGet g x y = .ok t ∧ isMobile t = true ∧
    ((∃ L, movesDir g t y x (-1) (x - 1) moveFuel = .ok L ∧ m ∈ L) ∨
     (∃ L, movesDir g t y x 1 (x + 1) moveFuel = .ok L ∧ m ∈ L))

/-- Number of cells of the position list `l` currently holding tile `k`;
`countIn playPos` is the per-kind census taken by `isSolvable`. -/
def countIn (l : List Pos) (g : Grid) (k : Tile) : Nat :=
  (l.filter (fun p => decide (pfGet g p.1 p.2 = .ok k))).length

/-- Positions of one column of the play area. -/
def colPos (x : Int) : List Pos := (upList 12).map (fun y => ((x, y) : Pos))

/-- Number of cells of kind `k` in play column `x`. -/
def colKindCount (g : Grid) (x : Int) (k : Tile) : Nat := countIn (colPos x) g k

/-- Number of cells of kind `k` on the play area — the value `cnts[k]`
computed by `isSolvable` for `k ∈ tile0 … tile7`. -/
def kindCount (g : Grid) (k : Tile) : Nat := countIn playPos g k

/-- No mobile tile at `(x, y)` has an Empty cell directly below it. -/
def noFloat (g : Grid) (x y : Int) : Prop :=
  ∀ t, pfGet g x y = .ok t → isMobile t = true → pfGet g x (y + 1) ≠ .ok tileEmpty

/-- Executable check of `BorderOK`, for concrete grids. -/
def borderOKb (g : Grid) : Bool :=
  (upList 14).all (fun r => (upList 14).all (fun c =>
    !(decide (borderCell r c)) || decide (rawGet g r c = .ok (borderVal r c))))

/-- Valid level data with a Heart (`tile0`, the Go zero value) at the play
cell `(11, 10)` — the rightmost column — and a two-Diamond match that gives
the generator a legal move. -/
def heartData : List (List Tile) :=
  [[10,10,10,10,10,10,10,10,10,10,10,10],
   [10,10,10,10,10,10,10,10,10,10,10,10],
   [10,10,10,10,10,10,10,10,10,10,10,10],
   [10,10,10,10,10,10,10,10,10,10,10,10],
   [10,10,10,10,10,10,10,10,10,10,10,10],
   [10,10,10,10,10,10,10,10,10,10,10,10],
   [10,10,10,10,10,10,10,10,10,10,10,10],
   [10,10,10,10,10,10,10,10,10,10,10,10],
   [10,10,10,10,10,10,10,10,10,10,10,10],
   [10,10,10,10,10,10,10,10,10,10,10,10],
   [ 9, 1,11, 1, 9,10,10,10,10,10,10, 0],
   [ 9, 9, 9, 9, 9, 9, 9, 9, 9, 9, 9, 9]]

/-- The board built from `heartData`.  The Heart at raw index `(11, 12)`
is orthogonally adjacent to the zero-valued padding cell `(11, 13)`, which
holds the same tile kind `tile0`. -/
def heartG : Grid :=
  [[10,10,10,10,10,10,10,10,10,10,10,10, 0, 0],
   [10,10,10,10,10,10,10,10,10,10,10,10,10, 0],
   [10,10,10,10,10,10,10,10,10,10,10,10,10, 0],
   [10,10,10,10,10,10,10,10,10,10,10,10,10, 0],
   [10,10,10,10,10,10,10,10,10,10,10,10,10, 0],
   [10,10,10,10,10,10,10,10,10,10,10,10,10, 0],
   [10,10,10,10,10,10,10,10,10,10,10,10,10, 0],
   [10,10,10,10,10,10,10,10,10,10,10,10,10, 0],
   [10,10,10,10,10,10,10,10,10,10,10,10,10, 0],
   [10,10,10,10,10,10,10,10,10,10,10,10,10, 0],
   [10,10,10,10,10,10,10,10,10,10,10,10,10, 0],
   [10, 9, 1,11, 1, 9,10,10,10,10,10,10, 0, 0],
   [ 0, 9, 9, 9, 9, 9, 9, 9, 9, 9, 9, 9, 9, 0],
   [ 0, 0, 0, 0, 0, 0, 0, 0, 0, 0, 0, 0, 0, 0]]

def heartMove : Move := ⟨10, 1, 2⟩

/-- The Heart level as an initial search state (empty path). -/
def heartPf : Playfield := ⟨heartG, []⟩

/-- A well-formed board with a single mobile tile: a Heart at play cell
`(5, 0)` — the top row — with an Empty cell directly below it. -/
def topHeartG : Grid :=
  [[10,10,10,10,10,10,10,10,10,10,10,10,10,10],
   [10,10,10,10,10,10, 0,10,10,10,10,10,10,10],
   [10,10,10,10,10,10,11,10,10,10,10,10,10,10],
   [10,10,10,10,10,10,10,10,10,10,10,10,10,10],
   [10,10,10,10,10,10,10,10,10,10,10,10,10,10],
   [10,10,10,10,10,10,10,10,10,10,10,10,10,10],
   [10,10,10,10,10,10,10,10,10,10,10,10,10,10],
   [10,10,10,10,10,10,10,10,10,10,10,10,10,10],
   [10,10,10,10,10,10,10,10,10,10,10,10,10,10],
   [10,10,10,10,10,10,10,10,10,10,10,10,10,10],
   [10,10,10,10,10,10,10,10,10,10,10,10,10,10],
   [10,10,10,10,10,10,10,10,10,10,10,10,10,10],
   [10,10,10,10,10,10,10,10,10,10,10,10,10,10],
   [10,10,10,10,10,10,10,10,10,10,10,10,10,10]]

/-- The grid produced by `fill zeroGrid tileBg`: `fill` writes raw indices
`0..11` only, so the bottom two raw rows and the right two raw columns keep
the zero value `tile0`. -/
def filledGrid : Grid :=
  [[10,10,10,10,10,10,10,10,10,10,10,10, 0, 0],
   [10,10,10,10,10,10,10,10,10,10,10,10, 0, 0],
   [10,10,10,10,10,10,10,10,10,10,10,10, 0, 0],
   [10,10,10,10,10,10,10,10,10,10,10,10, 0, 0],
   [10,10,10,10,10,10,10,10,10,10,10,10, 0, 0],
   [10,10,10,10,10,10,10,10,10,10,10,10, 0, 0],
   [10,10,10,10,10,10,10,10,10,10,10,10, 0, 0],
   [10,10,10,10,10,10,10,10,10,10,10,10, 0, 0],
   [10,10,10,10,10,10,10,10,10,10,10,10, 0, 0],
   [10,10,10,10,10,10,10,10,10,10,10,10, 0, 0],
   [10,10,10,10,10,10,10,10,10,10,10,10, 0, 0],
   [10,10,10,10,10,10,10,10,10,10,10,10, 0, 0],
   [ 0, 0, 0, 0, 0, 0, 0, 0, 0, 0, 0, 0, 0, 0],
   [ 0, 0, 0, 0, 0, 0, 0, 0, 0, 0, 0, 0, 0, 0]]

/-- `ReachesVia pf pf'`: the board `pf'` arises from `pf` by a finite
sequence of successful `apply` calls, each applying a move that
`possibleMoves` produced for the board it is applied to (with any
stabilization fuel) — the reachability relation of the solver's search. -/
inductive ReachesVia (pf : Playfield) : Playfield → Prop where
  | refl : ReachesVia pf pf
  | step {pf2 pf3 : Playfield} {ms : List Move} {m : Move} {fuel : Nat} :
      ReachesVia pf pf2 → possibleMoves pf2.tiles = .ok ms → m ∈ ms →
      apply pf2 m fuel = .ok pf3 → ReachesVia pf pf3

-- ================================================
-- Tile-range boundedness, and the finiteness of the space of boards

/-- A tile value the program can ever store: the enumeration range
`0 … 11` (`tile0 … tileEmpty`). -/
def TileOK (t : Tile) : Prop := 0 ≤ t ∧ t ≤ 11

instance (t : Tile) : Decidable (TileOK t) := by unfold TileOK; infer_instance

/-- A well-formed board all of whose cells hold enumeration values — the
finite space of boards the search can visit. -/
def BoundedG (g : Grid) : Prop := Wf g ∧ ∀ row ∈ g, ∀ t ∈ row, TileOK t

instance : DecidablePred BoundedG := fun g => by unfold BoundedG; infer_instance

/-- A tile as one of the 12 enumeration values. -/
def encTile (t : Tile) : Fin 12 := ⟨t.toNat % 12, Nat.mod_lt _ (by omega)⟩

/-- A board as a function on `Fin 14 × Fin 14` — injective on bounded
well-formed boards. -/
def encGrid (g : Grid) : Fin 14 → Fin 14 → Fin 12 :=
  fun i j => encTile ((g.getD i.val []).getD j.val tile0)

/-- The number of distinct 14×14 boards over the 12 tile values: a bound
on the size of the visited-set of the search. -/
def gridCard : Nat := Fintype.card (Fin 14 → Fin 14 → Fin 12)

-- ================================================
-- The breadth-first search loop of `main`

/-- State of the search loop of `main`: the FIFO frontier (`pop` takes the
head, `push` appends at the tail), the visited tile-grid set (the Go map
`seen`, modelled as the list of inserted keys) and the solution found so
far. -/
structure Search where
  queue : List Playfield
  seen : List Grid
  sol : Option Playfield
deriving DecidableEq, Repr

/-- The body of the inner `for _, m := range moves` loop of `main`: apply
the move; skip the result if its grid was already seen; otherwise mark it
seen, drop it if not solvable, record it as the solution if solved, and
enqueue it. -/
def searchMove (fuel : Nat) (pf : Playfield) (st : Search) (m : Move) : Res Search := do
  let pf2 ← apply pf m fuel
  if pf2.tiles ∈ st.seen then pure st
  else do
    let sv ← isSolvable pf2.tiles
    if sv = false then pure ⟨st.queue, pf2.tiles :: st.seen, st.sol⟩
    else do
      let sd ← isSolved pf2.tiles
      pure ⟨st.queue ++ [pf2], pf2.tiles :: st.seen, if sd then some pf2 else st.sol⟩

/-- One iteration of the outer search loop: pop the head playfield,
generate its moves and process each one. -/
def searchIter (fuel : Nat) (st : Search) (pf : Playfield) (rest : List Playfield) :
    Res Search := do
  let ms ← possibleMoves pf.tiles
  foldSt (searchMove fuel pf) ms ⟨rest, st.seen, st.sol⟩

/-- The search loop `for solution == nil && !playfields.empty()` of
`main`, with explicit iteration fuel (`fuel` is the stabilization fuel
handed to each `apply`). -/
def searchLoop (fuel : Nat) : Nat → Search → Res Search
  | 0, _ => .fuel
  | n + 1, st =>
      if st.sol.isSome then pure st
      else
        match st.queue with
        | [] => pure st
        | pf :: rest => do
            let st2 ← searchIter fuel st pf rest
            searchLoop fuel n st2

/-- The search state on loop entry: the start playfield enqueued, nothing
seen, no solution. -/
def searchInit (pf : Playfield) : Search := ⟨[pf], [], none⟩

/-- Termination potential of a search state: an enqueued board costs 1,
an unseen grid can cost 2 (its insertion enqueues at most one board). -/
def searchPot (st : Search) : Nat := st.queue.length + 2 * (gridCard - st.seen.length)

/-- Search-loop invariant: the visited set is duplicate-free and holds
only bounded grids, and every enqueued board is bounded. -/
def SearchInv (st : Search) : Prop :=
  st.seen.Nodup ∧ (∀ g ∈ st.seen, BoundedG g) ∧ ∀ p ∈ st.queue, BoundedG p.tiles

-- ================================================
-- Basic lemmas about grid reads and writes

@[simp] theorem Res.bind_ok (a : α) (f : α → Res β) : (Res.ok a >>= f) = f a := rfl

@[simp] theorem Res.bind_oob (f : α → Res β) : ((Res.oob : Res α) >>= f) = .oob := rfl

@[simp] theorem Res.bind_fuel (f : α → Res β) : ((Res.fuel : Res α) >>= f) = .fuel := rfl

@[simp] theorem Res.pure_eq (a : α) : (pure a : Res α) = .ok a := rfl

theorem Res.ok_of_bind_ok {m : Res α} {f : α → Res β} {b : β}
    (h : (m >>= f) = .ok b) : ∃ a, m = .ok a ∧ f a = .ok b := by
  cases m with
  | ok a => exact ⟨a, rfl, h⟩
  | oob => exact absurd h (by simp [Bind.bind, Res.bind])
  | fuel => exact absurd h (by simp [Bind.bind, Res.bind])

theorem inner_inB {x y : Int} (h : inner x y) : inB x y := by
  obtain ⟨h1, h2, h3, h4⟩ := h
  exact ⟨by omega, by omega, by omega, by omega⟩

set_option maxRecDepth 8000 in
theorem twoD_fromString : playfieldFromString twoDData = .ok twoDG := by decide

set_option maxRecDepth 8000 in
theorem twoD_apply : apply ⟨twoDG, []⟩ twoDMove 20 = .ok twoDAfterPf := by decide

set_option maxRecDepth 8000 in
theorem twoD_moves : possibleMoves twoDG = .ok [⟨10, 1, 2⟩, ⟨10, 3, 2⟩] := by decide



theorem rawSet_elim {g : Grid} {r c : Int} {t : Tile} {g' : Grid}
    (h : rawSet g r c t = .ok g') :
    ∃ row, 0 ≤ r ∧ 0 ≤ c ∧ g[r.toNat]? = some row ∧ c.toNat < row.length ∧
      g' = g.set r.toNat (row.set c.toNat t) := by
  unfold rawSet at h
  split at h
  · rename_i hrc
    split at h
    · rename_i row hrow
      split at h
      · rename_i hc
        cases h
        exact ⟨row, hrc.1, hrc.2, hrow, hc, rfl⟩
      · simp at h
    · simp at h
  · simp at h

theorem rawGet_intro {g : Grid} {r c : Int} {row : List Tile}
    (hr : 0 ≤ r) (hc : 0 ≤ c) (hrow : g[r.toNat]? = some row) (hlen : c.toNat < row.length) :
    rawGet g r c = .ok row[c.toNat] := by
  unfold rawGet
  rw [if_pos ⟨hr, hc⟩, hrow]
  show (match row[c.toNat]? with | some t => Res.ok t | none => Res.oob) = _
  rw [List.getElem?_eq_getElem hlen]

theorem rawGet_elim {g : Grid} {r c : Int} {t : Tile}
    (h : rawGet g r c = .ok t) :
    ∃ row, 0 ≤ r ∧ 0 ≤ c ∧ g[r.toNat]? = some row ∧ row[c.toNat]? = some t := by
  unfold rawGet at h
  split at h
  · rename_i hrc
    split at h
    · rename_i row hrow
      split at h
      · rename_i u hu
        cases h
        exact ⟨row, hrc.1, hrc.2, hrow, hu⟩
      · simp at h
    · simp at h
  · simp at h

theorem Wf.length_row {g : Grid} (hw : Wf g) {i : Nat} {row : List Tile}
    (h : g[i]? = some row) : row.length = 14 :=
  hw.2 row (List.getElem?_mem h)

/-- Writing succeeds exactly where reading does. -/
theorem rawSet_ok_of_rawGet {g : Grid} {r c : Int} {u : Tile}
    (h : rawGet g r c = .ok u) (t : Tile) : ∃ g', rawSet g r c t = .ok g' := by
  obtain ⟨row, hr, hc, hrow, hu⟩ := rawGet_elim h
  refine ⟨g.set r.toNat (row.set c.toNat t), ?_⟩
  unfold rawSet
  rw [if_pos ⟨hr, hc⟩, hrow]
  show (if c.toNat < row.length then _ else _) = _
  rw [if_pos (List.getElem?_eq_some_iff.mp hu).1]

/-- Reading after a write: the written cell holds the new value and every
other cell is unchanged. -/
theorem rawGet_rawSet {g : Grid} {r c : Int} {t : Tile} {g' : Grid}
    (h : rawSet g r c t = .ok g') (r' c' : Int) :
    rawGet g' r' c' = if r' = r ∧ c' = c then .ok t else rawGet g r' c' := by
  obtain ⟨row, hr, hc, hrow, hlen, rfl⟩ := rawSet_elim h
  have hrlt : r.toNat < g.length := (List.getElem?_eq_some_iff.mp hrow).1
  by_cases hcase : r' = r ∧ c' = c
  · rw [if_pos hcase, hcase.1, hcase.2]
    have hrow' : (g.set r.toNat (row.set c.toNat t))[r.toNat]? = some (row.set c.toNat t) :=
      List.getElem?_set_self hrlt
    have hlen' : c.toNat < (row.set c.toNat t).length := by simpa using hlen
    have := rawGet_intro hr hc hrow' hlen'
    rwa [List.getElem_set_self] at this
  · rw [if_neg hcase]
    unfold rawGet
    by_cases hb : 0 ≤ r' ∧ 0 ≤ c'
    · rw [if_pos hb, if_pos hb]
      by_cases hrr : r'.toNat = r.toNat
      · have hreq : r' = r := by omega
        have hcne : c' ≠ c := fun hcc => hcase ⟨hreq, hcc⟩
        have hcne' : c.toNat ≠ c'.toNat := by omega
        rw [hrr, List.getElem?_set_self hrlt, hrow]
        show (match (row.set c.toNat t)[c'.toNat]? with | some u => Res.ok u | none => Res.oob) = _
        rw [List.getElem?_set_ne hcne']
      · rw [List.getElem?_set_ne (fun hh => hrr hh.symm)]
    · rw [if_neg hb, if_neg hb]

theorem Wf.rawSet {g : Grid} {r c : Int} {t : Tile} {g' : Grid}
    (hw : Wf g) (h : rawSet g r c t = .ok g') : Wf g' := by
  obtain ⟨row, hr, hc, hrow, hlen, rfl⟩ := rawSet_elim h
  constructor
  · simpa using hw.1
  · intro row' hmem
    rcases List.mem_or_eq_of_mem_set hmem with hmem' | rfl
    · exact hw.2 row' hmem'
    · simpa using hw.length_row hrow

-- pf-level versions (get/set with the +1 padding offset)

theorem pfSet_elim {g : Grid} {x y : Int} {t : Tile} {g' : Grid}
    (h : pfSet g x y t = .ok g') :
    rawSet g (y + 1) (x + 1) t = .ok g' := h

theorem pfGet_pfSet {g : Grid} {x y : Int} {t : Tile} {g' : Grid}
    (h : pfSet g x y t = .ok g') (x' y' : Int) :
    pfGet g' x' y' = if x' = x ∧ y' = y then .ok t else pfGet g x' y' := by
  unfold pfGet
  rw [rawGet_rawSet h]
  have : (y' + 1 = y + 1 ∧ x' + 1 = x + 1) ↔ (x' = x ∧ y' = y) := by omega
  simp only [this]

theorem Wf.pfSet {g : Grid} {x y : Int} {t : Tile} {g' : Grid}
    (hw : Wf g) (h : pfSet g x y t = .ok g') : Wf g' := hw.rawSet h

theorem pfGet_ok_of_inB {g : Grid} {x y : Int} (hw : Wf g) (h : inB x y) :
    ∃ t, pfGet g x y = .ok t := by
  obtain ⟨h1, h2, h3, h4⟩ := h
  have hg := hw.1
  have hr : (y + 1).toNat < g.length := by omega
  obtain ⟨row, hrow⟩ : ∃ row, g[(y + 1).toNat]? = some row :=
    ⟨_, List.getElem?_eq_getElem hr⟩
  have hlen : (x + 1).toNat < row.length := by
    rw [hw.length_row hrow]; omega
  exact ⟨_, rawGet_intro (by omega) (by omega) hrow hlen⟩

theorem pfGet_inB {g : Grid} {x y : Int} {t : Tile} (hw : Wf g)
    (h : pfGet g x y = .ok t) : inB x y := by
  obtain ⟨row, hr, hc, hrow, hu⟩ := rawGet_elim h
  have h1 : (y + 1).toNat < g.length := (List.getElem?_eq_some_iff.mp hrow).1
  have h2 : (x + 1).toNat < row.length := (List.getElem?_eq_some_iff.mp hu).1
  have h3 := hw.length_row hrow
  have h4 := hw.1
  exact ⟨by omega, by omega, by omega, by omega⟩

theorem pfSet_ok_of_inB {g : Grid} {x y : Int} (hw : Wf g) (h : inB x y) (t : Tile) :
    ∃ g', pfSet g x y t = .ok g' := by
  obtain ⟨u, hu⟩ := pfGet_ok_of_inB hw h
  exact rawSet_ok_of_rawGet hu t

theorem pfSet_inB {g : Grid} {x y : Int} {t : Tile} {g' : Grid} (hw : Wf g)
    (h : pfSet g x y t = .ok g') : inB x y := by
  obtain ⟨row, hr, hc, hrow, hlen, rfl⟩ := pfSet_elim h |> rawSet_elim
  have h3 := hw.length_row hrow
  have h4 := hw.1
  have h1 : (y + 1).toNat < g.length := (List.getElem?_eq_some_iff.mp hrow).1
  exact ⟨by omega, by omega, by omega, by omega⟩

-- foldSt invariant machinery

theorem foldSt_inv {σ α : Type} {step : σ → α → Res σ} {P : σ → Prop} :
    ∀ {l : List α} {s s' : σ},
      (∀ t a, a ∈ l → P t → ∀ t', step t a = .ok t' → P t') →
      P s → foldSt step l s = .ok s' → P s' := by
  intro l
  induction l with
  | nil =>
    intro s s' _ hP h
    cases h
    exact hP
  | cons a l ih =>
    intro s s' hstep hP h
    unfold foldSt at h
    obtain ⟨s1, h1, h2⟩ := Res.ok_of_bind_ok h
    exact ih (fun t b hb => hstep t b (List.mem_cons_of_mem a hb)) (hstep s a (List.mem_cons_self a l) hP s1 h1) h2

theorem foldSt_pres {σ α : Type} (P : σ → Prop) {step : σ → α → Res σ} {l : List α} {s s' : σ}
    (hstep : ∀ t a, P t → ∀ t', step t a = .ok t' → P t')
    (hP : P s) (h : foldSt step l s = .ok s') : P s' :=
  foldSt_inv (fun t a _ => hstep t a) hP h

-- ================================================
-- Inversion lemmas for the loop bodies

theorem Res.pure_elim {α : Type} {a b : α} (h : (pure a : Res α) = .ok b) : a = b := by
  simpa using h

/-- Unfolding of a successful `fallDest`: the run below the start is Empty
and the landing row has a non-Empty cell below it. -/
theorem fallDest_elim : ∀ {n : Nat} {g : Grid} {x y0 y2 : Int},
    fallDest g x y0 n = .ok y2 →
    y0 ≤ y2 ∧ (∀ yy, y0 < yy → yy ≤ y2 → pfGet g x yy = .ok tileEmpty) ∧
      ∃ b, pfGet g x (y2 + 1) = .ok b ∧ b ≠ tileEmpty := by
  intro n
  induction n with
  | zero => intro g x y0 y2 h; simp [fallDest] at h
  | succ n ih =>
    intro g x y0 y2 h
    unfold fallDest at h
    obtain ⟨b, hb, h⟩ := Res.ok_of_bind_ok h
    by_cases hbe : b = tileEmpty
    · rw [if_pos hbe] at h
      obtain ⟨h1, h2, h3⟩ := ih h
      refine ⟨by omega, ?_, h3⟩
      intro yy hlo hhi
      by_cases hyy : yy = y0 + 1
      · rw [hyy]; rw [hbe] at hb; exact hb
      · exact h2 yy (by omega) hhi
    · rw [if_neg hbe] at h
      have := Res.pure_elim h
      subst this
      exact ⟨le_refl _, fun yy hlo hhi => absurd (by omega : y0 < y0) (lt_irrefl _), b, hb, hbe⟩

/-- Case analysis of a successful `dropTiles` loop body. -/
theorem dropStep_elim {g : Grid} {ch : Bool} {y x : Int} {g' : Grid} {ch' : Bool}
    (h : dropStep g ch y x = .ok (g', ch')) :
    (∃ t, pfGet g x y = .ok t ∧ isMobile t = false ∧ g' = g ∧ ch' = ch) ∨
    (∃ t b, pfGet g x y = .ok t ∧ isMobile t = true ∧ pfGet g x (y + 1) = .ok b ∧
      b ≠ tileEmpty ∧ g' = g ∧ ch' = ch) ∨
    (∃ t y2 g1, pfGet g x y = .ok t ∧ isMobile t = true ∧
      pfGet g x (y + 1) = .ok tileEmpty ∧ fallDest g x y fallFuel = .ok y2 ∧
      pfSet g x y tileEmpty = .ok g1 ∧ pfSet g1 x y2 t = .ok g' ∧ ch' = true) := by
  unfold dropStep at h
  obtain ⟨t, ht, h⟩ := Res.ok_of_bind_ok h
  by_cases hm : isMobile t
  · rw [if_pos hm] at h
    obtain ⟨b, hb, h⟩ := Res.ok_of_bind_ok h
    by_cases hbe : b = tileEmpty
    · rw [if_pos hbe] at h
      obtain ⟨y2, hy2, h⟩ := Res.ok_of_bind_ok h
      obtain ⟨g1, hg1, h⟩ := Res.ok_of_bind_ok h
      obtain ⟨g2, hg2, h⟩ := Res.ok_of_bind_ok h
      have := Res.pure_elim h
      rw [Prod.mk.injEq] at this
      subst hbe
      exact Or.inr (Or.inr ⟨t, y2, g1, ht, hm, hb, hy2, hg1, this.1 ▸ hg2, this.2.symm⟩)
    · rw [if_neg hbe] at h
      have := Res.pure_elim h
      rw [Prod.mk.injEq] at this
      exact Or.inr (Or.inl ⟨t, b, ht, hm, hb, hbe, this.1.symm, this.2.symm⟩)
  · rw [if_neg hm] at h
    have := Res.pure_elim h
    rw [Prod.mk.injEq] at this
    exact Or.inl ⟨t, ht, by simpa using hm, this.1.symm, this.2.symm⟩

/-- Case analysis of a successful `removeTiles` loop body. -/
theorem removeStep_elim {g : Grid} {ch : Bool} {y x : Int} {g' : Grid} {ch' : Bool}
    (h : removeStep g ch y x = .ok (g', ch')) :
    (∃ t, pfGet g x y = .ok t ∧ isErasable t = false ∧ g' = g ∧ ch' = ch) ∨
    (∃ t s, pfGet g x y = .ok t ∧ isErasable t = true ∧
      extendTileset g t floodFuel (x, y) [] = .ok s ∧ s.length < 2 ∧ g' = g ∧ ch' = ch) ∨
    (∃ t s, pfGet g x y = .ok t ∧ isErasable t = true ∧
      extendTileset g t floodFuel (x, y) [] = .ok s ∧ 2 ≤ s.length ∧
      clearCells s g = .ok g' ∧ ch' = true) := by
  unfold removeStep at h
  obtain ⟨t, ht, h⟩ := Res.ok_of_bind_ok h
  by_cases he : isErasable t
  · rw [if_pos he] at h
    obtain ⟨s, hs, h⟩ := Res.ok_of_bind_ok h
    by_cases hlen : 2 ≤ s.length
    · rw [if_pos hlen] at h
      obtain ⟨g2, hg2, h⟩ := Res.ok_of_bind_ok h
      have := Res.pure_elim h
      rw [Prod.mk.injEq] at this
      exact Or.inr (Or.inr ⟨t, s, ht, he, hs, hlen, this.1 ▸ hg2, this.2.symm⟩)
    · rw [if_neg hlen] at h
      have := Res.pure_elim h
      rw [Prod.mk.injEq] at this
      exact Or.inr (Or.inl ⟨t, s, ht, he, hs, by omega, this.1.symm, this.2.symm⟩)
  · rw [if_neg he] at h
    have := Res.pure_elim h
    rw [Prod.mk.injEq] at this
    exact Or.inl ⟨t, ht, by simpa using he, this.1.symm, this.2.symm⟩

-- ================================================
-- The changed flag is exact: a pass that reports no change left the grid alone

theorem dropStep_unchanged {g : Grid} {ch : Bool} {y x : Int} {g' : Grid} {ch' : Bool}
    (h : dropStep g ch y x = .ok (g', ch')) (hf : ch' = false) : g' = g ∧ ch = false := by
  rcases dropStep_elim h with ⟨t, _, _, hg, hc⟩ | ⟨t, b, _, _, _, _, hg, hc⟩ |
    ⟨t, y2, g1, _, _, _, _, _, _, hc⟩
  · exact ⟨hg, hc ▸ hf⟩
  · exact ⟨hg, hc ▸ hf⟩
  · rw [hc] at hf; cases hf

theorem removeStep_unchanged {g : Grid} {ch : Bool} {y x : Int} {g' : Grid} {ch' : Bool}
    (h : removeStep g ch y x = .ok (g', ch')) (hf : ch' = false) : g' = g ∧ ch = false := by
  rcases removeStep_elim h with ⟨t, _, _, hg, hc⟩ | ⟨t, s, _, _, _, _, hg, hc⟩ |
    ⟨t, s, _, _, _, _, _, hc⟩
  · exact ⟨hg, hc ▸ hf⟩
  · exact ⟨hg, hc ▸ hf⟩
  · rw [hc] at hf; cases hf

theorem dropTiles_unchanged {g g' : Grid} {ch' : Bool}
    (h : dropTiles g = .ok (g', ch')) (hf : ch' = false) : g' = g := by
  unfold dropTiles at h
  have main : (fun st : Grid × Bool => st.2 = false → st.1 = g) (g', ch') := by
    refine foldSt_pres (fun st : Grid × Bool => st.2 = false → st.1 = g) ?_ ?_ h
    · rintro ⟨g1, ch1⟩ yy hP ⟨g2, ch2⟩ hstep
      refine foldSt_pres (fun st : Grid × Bool => st.2 = false → st.1 = g) ?_ hP hstep
      rintro ⟨ga, cha⟩ xx hPa ⟨gb, chb⟩ hstepb hfb
      obtain ⟨hg, hc⟩ := dropStep_unchanged hstepb hfb
      rw [hg]; exact hPa hc
    · intro _; rfl
  exact main hf

theorem removeTiles_unchanged {g g' : Grid} {ch' : Bool}
    (h : removeTiles g = .ok (g', ch')) (hf : ch' = false) : g' = g := by
  unfold removeTiles at h
  have main : (fun st : Grid × Bool => st.2 = false → st.1 = g) (g', ch') := by
    refine foldSt_pres (fun st : Grid × Bool => st.2 = false → st.1 = g) ?_ ?_ h
    · rintro ⟨g1, ch1⟩ yy hP ⟨g2, ch2⟩ hstep
      refine foldSt_pres (fun st : Grid × Bool => st.2 = false → st.1 = g) ?_ hP hstep
      rintro ⟨ga, cha⟩ xx hPa ⟨gb, chb⟩ hstepb hfb
      obtain ⟨hg, hc⟩ := removeStep_unchanged hstepb hfb
      rw [hg]; exact hPa hc
    · intro _; rfl
  exact main hf

-- ================================================
-- Stability of the transition result (claim C4)

theorem applyLoop_stable : ∀ {n : Nat} {g gs : Grid}, applyLoop n g = .ok gs →
    dropTiles gs = .ok (gs, false) ∧ removeTiles gs = .ok (gs, false) := by
  intro n
  induction n with
  | zero => intro g gs h; simp [applyLoop] at h
  | succ n ih =>
    intro g gs h
    unfold applyLoop at h
    cases hd : dropTiles g with
    | oob => rw [hd] at h; simp at h
    | fuel => rw [hd] at h; simp at h
    | ok st =>
      obtain ⟨g1, ch1⟩ := st
      rw [hd] at h
      simp only [Res.bind_ok] at h
      cases ch1 with
      | true => exact ih h
      | false =>
        simp only [Bool.false_eq_true, if_false] at h
        cases hr : removeTiles g1 with
        | oob => rw [hr] at h; simp at h
        | fuel => rw [hr] at h; simp at h
        | ok st2 =>
          obtain ⟨g2, ch2⟩ := st2
          rw [hr] at h
          simp only [Res.bind_ok] at h
          cases ch2 with
          | true => exact ih h
          | false =>
            simp only [Bool.false_eq_true, if_false] at h
            have hgs := Res.pure_elim h
            have e1 : g1 = g := dropTiles_unchanged hd rfl
            have e2 : g2 = g1 := removeTiles_unchanged hr rfl
            rw [e1] at hd
            rw [e2, e1] at hr
            constructor
            · rw [← hgs, e2, e1]; exact hd
            · rw [← hgs, e2, e1]; exact hr

theorem apply_elim {pf : Playfield} {m : Move} {fuel : Nat} {pf' : Playfield}
    (h : apply pf m fuel = .ok pf') :
    ∃ t g1 g2, pfGet pf.tiles m.fromX m.fromY = .ok t ∧
      pfSet pf.tiles m.fromX m.fromY tileEmpty = .ok g1 ∧
      pfSet g1 m.toX m.fromY t = .ok g2 ∧
      applyLoop fuel g2 = .ok pf'.tiles ∧ pf'.path = pf.path ++ [m] := by
  unfold apply clone at h
  obtain ⟨t, ht, h⟩ := Res.ok_of_bind_ok h
  obtain ⟨g1, hg1, h⟩ := Res.ok_of_bind_ok h
  obtain ⟨g2, hg2, h⟩ := Res.ok_of_bind_ok h
  obtain ⟨g3, hg3, h⟩ := Res.ok_of_bind_ok h
  have := Res.pure_elim h
  subst this
  exact ⟨t, g1, g2, ht, hg1, hg2, hg3, rfl⟩

-- ================================================
-- Claim C4: stability / idempotence of the fixed-point procedure

/-- C4: for every board `pf` and move `m`, a board returned by
`apply pf m` is stable: the gravity pass on it reports no change and leaves
it untouched, the removal pass on it reports no change and leaves it
untouched, and hence running the gravity-and-removal fixed-point loop a
second time (with any non-zero fuel) returns the identical board. -/
theorem apply_result_stable (pf : Playfield) (m : Move) (fuel : Nat) (pf' : Playfield)
    (h : apply pf m fuel = .ok pf') :
    dropTiles pf'.tiles = .ok (pf'.tiles, false) ∧
    removeTiles pf'.tiles = .ok (pf'.tiles, false) ∧
    ∀ n : Nat, applyLoop (n + 1) pf'.tiles = .ok pf'.tiles := by
  obtain ⟨t, g1, g2, _, _, _, hloop, _⟩ := apply_elim h
  obtain ⟨hdrop, hremove⟩ := applyLoop_stable hloop
  refine ⟨hdrop, hremove, fun n => ?_⟩
  unfold applyLoop
  rw [hdrop]
  simp only [Res.bind_ok, Bool.false_eq_true, if_false]
  rw [hremove]
  simp only [Res.bind_ok, Bool.false_eq_true, if_false]
  rfl

/-- Witness for C4 at a concrete input: applying the move `(1,10) → (2,10)`
on the two-Diamond board yields a stable board. -/
theorem apply_result_stable_witness :
    dropTiles twoDAfterPf.tiles = .ok (twoDAfterPf.tiles, false) ∧
    removeTiles twoDAfterPf.tiles = .ok (twoDAfterPf.tiles, false) ∧
    applyLoop 1 twoDAfterPf.tiles = .ok twoDAfterPf.tiles :=
  ⟨(apply_result_stable ⟨twoDG, []⟩ twoDMove 20 twoDAfterPf twoD_apply).1,
   (apply_result_stable ⟨twoDG, []⟩ twoDMove 20 twoDAfterPf twoD_apply).2.1,
   (apply_result_stable ⟨twoDG, []⟩ twoDMove 20 twoDAfterPf twoD_apply).2.2 0⟩

-- ================================================
-- Claim C5: apply does not disturb the input board and appends the move

/-- C5: `apply` is free of side effects on its input: the input board is a
value (`clone` copies the Go array by assignment and copies the path into a
fresh slice, modelled by the identity on the immutable `Playfield` value),
and the returned board's history is the input's history with the applied
move appended. -/
theorem apply_no_mutation (pf : Playfield) (m : Move) (fuel : Nat) (pf' : Playfield)
    (h : apply pf m fuel = .ok pf') :
    pf'.path = pf.path ++ [m] ∧ clone pf = pf := by
  obtain ⟨t, g1, g2, _, _, _, _, hpath⟩ := apply_elim h
  exact ⟨hpath, rfl⟩

/-- Witness for C5 at a concrete input. -/
theorem apply_no_mutation_witness :
    twoDAfterPf.path = ([] : List Move) ++ [twoDMove] ∧ clone ⟨twoDG, []⟩ = ⟨twoDG, []⟩ :=
  apply_no_mutation ⟨twoDG, []⟩ twoDMove 20 twoDAfterPf twoD_apply

-- ================================================
-- Claim C8: there is no defensive validation at the transition boundary

set_option maxRecDepth 8000 in
theorem wallMove_eval : apply ⟨twoDG, []⟩ wallMove 20 = .ok wallMovedPf := by decide

/-- Counterexample to C8: `apply` on a move whose source holds a Wall (a
non-mobile tile, unreachable by the generator) does not report any failure
— it returns a stabilized board.  The transition has no validation at all
(the source has no `IllegalMove` error anywhere). -/
theorem apply_wall_not_rejected :
    pfGet twoDG 0 11 = .ok tileWall ∧ isMobile tileWall = false ∧
    apply ⟨twoDG, []⟩ wallMove 20 = .ok wallMovedPf := by
  refine ⟨by decide, by decide, wallMove_eval⟩

/-- C8 amended: the transition performs no defensive validation: a move
with a non-mobile source is applied unconditionally — the Wall itself is
slid to the destination and a stabilized board is returned. -/
theorem apply_no_validation :
    apply ⟨twoDG, []⟩ wallMove 20 = .ok wallMovedPf ∧
    pfGet wallMovedPf.tiles 0 11 = .ok tileEmpty ∧
    pfGet wallMovedPf.tiles 1 11 = .ok tileWall ∧
    dropTiles wallMovedPf.tiles = .ok (wallMovedPf.tiles, false) ∧
    removeTiles wallMovedPf.tiles = .ok (wallMovedPf.tiles, false) := by
  obtain ⟨t, g1, g2, _, _, _, hloop, _⟩ := apply_elim wallMove_eval
  obtain ⟨hd, hr⟩ := applyLoop_stable hloop
  exact ⟨wallMove_eval, by decide, by decide, hd, hr⟩

-- ================================================
-- Flood-fill lemmas (`extendTileset`)

theorem pfGet_not_inB {g : Grid} {x y : Int} (hw : Wf g) (h : ¬ inB x y) :
    pfGet g x y = .oob := by
  unfold pfGet rawGet
  have hg := hw.1
  by_cases hb : 0 ≤ y + 1 ∧ 0 ≤ x + 1
  · rw [if_pos hb]
    have hcase : x < -1 ∨ 12 < x ∨ y < -1 ∨ 12 < y := by
      by_contra hc
      push_neg at hc
      exact h ⟨by omega, by omega, by omega, by omega⟩
    by_cases hy : (y + 1).toNat < g.length
    · obtain ⟨row, hrow⟩ : ∃ row, g[(y + 1).toNat]? = some row :=
        ⟨_, List.getElem?_eq_getElem hy⟩
      rw [hrow]
      have hrl : row.length = 14 := hw.length_row hrow
      show (match row[(x + 1).toNat]? with | some t => Res.ok t | none => Res.oob) = Res.oob
      rw [List.getElem?_eq_none (by omega)]
    · rw [List.getElem?_eq_none (by omega)]
  · rw [if_neg hb]

theorem ext_props : ∀ {n : Nat} {g : Grid} {t : Tile} {p : Pos} {set s : List Pos},
    extendTileset g t n p set = .ok s →
    set ⊆ s ∧ (∀ q ∈ s, q ∈ set ∨ pfGet g q.1 q.2 = .ok t) ∧ (set.Nodup → s.Nodup) := by
  intro n
  induction n with
  | zero => intro g t p set s h; simp [extendTileset] at h
  | succ n ih =>
    intro g t p set s h
    unfold extendTileset at h
    by_cases hmem : p ∈ set
    · rw [if_pos hmem] at h
      have := Res.pure_elim h
      subst this
      exact ⟨fun q hq => hq, fun q hq => Or.inl hq, id⟩
    · rw [if_neg hmem] at h
      obtain ⟨cur, hcur, h⟩ := Res.ok_of_bind_ok h
      by_cases hct : cur = t
      · rw [if_pos hct] at h
        subst hct
        obtain ⟨s1, h1, h⟩ := Res.ok_of_bind_ok h
        obtain ⟨s2, h2, h⟩ := Res.ok_of_bind_ok h
        obtain ⟨s3, h3, h4⟩ := Res.ok_of_bind_ok h
        obtain ⟨m1, a1, d1⟩ := ih h1
        obtain ⟨m2, a2, d2⟩ := ih h2
        obtain ⟨m3, a3, d3⟩ := ih h3
        obtain ⟨m4, a4, d4⟩ := ih h4
        refine ⟨?_, ?_, ?_⟩
        · intro q hq
          exact m4 (m3 (m2 (m1 (List.mem_cons_of_mem p hq))))
        · intro q hq
          rcases a4 q hq with hq3 | hok
          · rcases a3 q hq3 with hq2 | hok
            · rcases a2 q hq2 with hq1 | hok
              · rcases a1 q hq1 with hq0 | hok
                · rcases List.mem_cons.mp hq0 with rfl | hqs
                  · exact Or.inr hcur
                  · exact Or.inl hqs
                · exact Or.inr hok
              · exact Or.inr hok
            · exact Or.inr hok
          · exact Or.inr hok
        · intro hnd
          exact d4 (d3 (d2 (d1 (List.nodup_cons.mpr ⟨hmem, hnd⟩))))
      · rw [if_neg hct] at h
        have := Res.pure_elim h
        subst this
        exact ⟨fun q hq => hq, fun q hq => Or.inl hq, id⟩

theorem ext_seed_mem {n : Nat} {g : Grid} {t : Tile} {p : Pos} {set s : List Pos}
    (h : extendTileset g t n p set = .ok s) (hp : pfGet g p.1 p.2 = .ok t) : p ∈ s := by
  cases n with
  | zero => simp [extendTileset] at h
  | succ n =>
    unfold extendTileset at h
    by_cases hmem : p ∈ set
    · rw [if_pos hmem] at h
      have := Res.pure_elim h
      subst this
      exact hmem
    · rw [if_neg hmem, hp] at h
      simp only [Res.bind_ok, if_true] at h
      obtain ⟨s1, h1, h⟩ := Res.ok_of_bind_ok h
      obtain ⟨s2, h2, h⟩ := Res.ok_of_bind_ok h
      obtain ⟨s3, h3, h4⟩ := Res.ok_of_bind_ok h
      exact (ext_props h4).1 ((ext_props h3).1 ((ext_props h2).1
        ((ext_props h1).1 (List.mem_cons_self p set))))

theorem ext_not_ok_of_oob {g : Grid} {t : Tile} {n : Nat} {q : Pos} {set s : List Pos}
    (hq : pfGet g q.1 q.2 = .oob) (hmem : q ∉ set) :
    extendTileset g t n q set ≠ .ok s := by
  intro h
  cases n with
  | zero => simp [extendTileset] at h
  | succ n =>
    unfold extendTileset at h
    rw [if_neg hmem, hq] at h
    simp at h

theorem ext_bad_stops {g : Grid} (hw : Wf g) {n : Nat} {t : Tile} {p : Pos} {set s : List Pos}
    (hset : ∀ q ∈ set, inB q.1 q.2) (hpB : inB p.1 p.2) (hpI : ¬ inner p.1 p.2)
    (hmem : p ∉ set) (hpt : pfGet g p.1 p.2 = .ok t) :
    extendTileset g t n p set ≠ .ok s := by
  intro h
  cases n with
  | zero => simp [extendTileset] at h
  | succ n =>
    unfold extendTileset at h
    rw [if_neg hmem, hpt] at h
    simp only [Res.bind_ok, if_true] at h
    obtain ⟨hB1, hB2, hB3, hB4⟩ := hpB
    have hcase : p.1 = -1 ∨ p.1 = 12 ∨ p.2 = -1 ∨ p.2 = 12 := by
      unfold inner at hpI
      omega
    have hs0 : ∀ q ∈ p :: set, inB q.1 q.2 := by
      intro q hq
      rcases List.mem_cons.mp hq with rfl | hq
      · exact ⟨hB1, hB2, hB3, hB4⟩
      · exact hset q hq
    rcases hcase with e | e | e | e
    · obtain ⟨s1, h1, h⟩ := Res.ok_of_bind_ok h
      refine ext_not_ok_of_oob (pfGet_not_inB hw ?_) ?_ h1
      · unfold inB; omega
      · intro hqmem
        have := hs0 _ hqmem
        unfold inB at this; omega
    · obtain ⟨s1, h1, h⟩ := Res.ok_of_bind_ok h
      obtain ⟨s2, h2, h⟩ := Res.ok_of_bind_ok h
      have hs1 : ∀ q ∈ s1, inB q.1 q.2 := by
        intro q hq
        rcases (ext_props h1).2.1 q hq with hq' | hok
        · exact hs0 q hq'
        · exact pfGet_inB hw hok
      refine ext_not_ok_of_oob (pfGet_not_inB hw ?_) ?_ h2
      · unfold inB; omega
      · intro hqmem
        have := hs1 _ hqmem
        unfold inB at this; omega
    · obtain ⟨s1, h1, h⟩ := Res.ok_of_bind_ok h
      obtain ⟨s2, h2, h⟩ := Res.ok_of_bind_ok h
      obtain ⟨s3, h3, h⟩ := Res.ok_of_bind_ok h
      have hs2 : ∀ q ∈ s2, inB q.1 q.2 := by
        intro q hq
        rcases (ext_props h2).2.1 q hq with hq' | hok
        · rcases (ext_props h1).2.1 q hq' with hq'' | hok
          · exact hs0 q hq''
          · exact pfGet_inB hw hok
        · exact pfGet_inB hw hok
      refine ext_not_ok_of_oob (pfGet_not_inB hw ?_) ?_ h3
      · unfold inB; omega
      · intro hqmem
        have := hs2 _ hqmem
        unfold inB at this; omega
    · obtain ⟨s1, h1, h⟩ := Res.ok_of_bind_ok h
      obtain ⟨s2, h2, h⟩ := Res.ok_of_bind_ok h
      obtain ⟨s3, h3, h4⟩ := Res.ok_of_bind_ok h
      have hs3 : ∀ q ∈ s3, inB q.1 q.2 := by
        intro q hq
        rcases (ext_props h3).2.1 q hq with hq' | hok
        · rcases (ext_props h2).2.1 q hq' with hq'' | hok
          · rcases (ext_props h1).2.1 q hq'' with hq''' | hok
            · exact hs0 q hq'''
            · exact pfGet_inB hw hok
          · exact pfGet_inB hw hok
        · exact pfGet_inB hw hok
      refine ext_not_ok_of_oob (pfGet_not_inB hw ?_) ?_ h4
      · unfold inB; omega
      · intro hqmem
        have := hs3 _ hqmem
        unfold inB at this; omega

/-- A successful flood fill whose accumulated set is inside the play area
never adds a cell outside the play area (reaching the padding ring would
have panicked one step further out). -/
theorem ext_inner {g : Grid} (hw : Wf g) : ∀ {n : Nat} {t : Tile} {p : Pos} {set s : List Pos},
    (∀ q ∈ set, inner q.1 q.2) → extendTileset g t n p set = .ok s →
    ∀ q ∈ s, inner q.1 q.2 := by
  intro n
  induction n with
  | zero => intro t p set s _ h; simp [extendTileset] at h
  | succ n ih =>
    intro t p set s hset h
    have h0 := h
    unfold extendTileset at h
    by_cases hmem : p ∈ set
    · rw [if_pos hmem] at h
      have := Res.pure_elim h
      subst this
      exact hset
    · rw [if_neg hmem] at h
      obtain ⟨cur, hcur, h⟩ := Res.ok_of_bind_ok h
      by_cases hct : cur = t
      · subst hct
        by_cases hpI : inner p.1 p.2
        · rw [if_pos rfl] at h
          obtain ⟨s1, h1, h⟩ := Res.ok_of_bind_ok h
          obtain ⟨s2, h2, h⟩ := Res.ok_of_bind_ok h
          obtain ⟨s3, h3, h4⟩ := Res.ok_of_bind_ok h
          have hs0 : ∀ q ∈ p :: set, inner q.1 q.2 := by
            intro q hq
            rcases List.mem_cons.mp hq with rfl | hq
            · exact hpI
            · exact hset q hq
          exact ih (ih (ih (ih hs0 h1) h2) h3) h4
        · exact absurd h0 (ext_bad_stops hw (fun q hq => inner_inB (hset q hq))
            (pfGet_inB hw hcur) hpI hmem hcur)
      · rw [if_neg hct] at h
        have := Res.pure_elim h
        subst this
        exact hset

theorem ext_closed : ∀ {n : Nat} {g : Grid} {t : Tile} {p : Pos} {set s : List Pos},
    extendTileset g t n p set = .ok s →
    ∀ q ∈ s, q ∉ set → ∀ q' ∈ nbrs q, pfGet g q'.1 q'.2 = .ok t → q' ∈ s := by
  intro n
  induction n with
  | zero => intro g t p set s h; simp [extendTileset] at h
  | succ n ih =>
    intro g t p set s h
    unfold extendTileset at h
    by_cases hmem : p ∈ set
    · rw [if_pos hmem] at h
      have := Res.pure_elim h
      subst this
      intro q hq hq'
      exact absurd hq hq'
    · rw [if_neg hmem] at h
      obtain ⟨cur, hcur, h⟩ := Res.ok_of_bind_ok h
      by_cases hct : cur = t
      · subst hct
        rw [if_pos rfl] at h
        obtain ⟨s1, h1, h⟩ := Res.ok_of_bind_ok h
        obtain ⟨s2, h2, h⟩ := Res.ok_of_bind_ok h
        obtain ⟨s3, h3, h4⟩ := Res.ok_of_bind_ok h
        have m2 := (ext_props h2).1
        have m3 := (ext_props h3).1
        have m4 := (ext_props h4).1
        intro q hq hqset q' hq' hq't
        by_cases hq1 : q ∈ s1
        · by_cases hqp : q = p
          · subst hqp
            simp only [nbrs, List.mem_cons, List.mem_singleton, List.not_mem_nil,
              or_false] at hq'
            rcases hq' with rfl | rfl | rfl | rfl
            · exact m4 (m3 (m2 (ext_seed_mem h1 hq't)))
            · exact m4 (m3 (ext_seed_mem h2 hq't))
            · exact m4 (ext_seed_mem h3 hq't)
            · exact ext_seed_mem h4 hq't
          · have hqs1 : q ∉ p :: set := by
              intro hc
              rcases List.mem_cons.mp hc with rfl | hc
              · exact hqp rfl
              · exact hqset hc
            exact m4 (m3 (m2 (ih h1 q hq1 hqs1 q' hq' hq't)))
        · by_cases hq2 : q ∈ s2
          · exact m4 (m3 (ih h2 q hq2 hq1 q' hq' hq't))
          · by_cases hq3 : q ∈ s3
            · exact m4 (ih h3 q hq3 hq2 q' hq' hq't)
            · exact ih h4 q hq hq3 q' hq' hq't
      · rw [if_neg hct] at h
        have := Res.pure_elim h
        subst this
        intro q hq hq'
        exact absurd hq hq'

theorem ext_reach : ∀ {n : Nat} {g : Grid} {t : Tile} {p : Pos} {set s : List Pos},
    extendTileset g t n p set = .ok s →
    ∀ q ∈ s, q ∈ set ∨ (pfGet g p.1 p.2 = .ok t ∧ ReachComp g t p q) := by
  intro n
  induction n with
  | zero => intro g t p set s h; simp [extendTileset] at h
  | succ n ih =>
    intro g t p set s h
    unfold extendTileset at h
    by_cases hmem : p ∈ set
    · rw [if_pos hmem] at h
      have := Res.pure_elim h
      subst this
      exact fun q hq => Or.inl hq
    · rw [if_neg hmem] at h
      obtain ⟨cur, hcur, h⟩ := Res.ok_of_bind_ok h
      by_cases hct : cur = t
      · subst hct
        rw [if_pos rfl] at h
        obtain ⟨s1, h1, h⟩ := Res.ok_of_bind_ok h
        obtain ⟨s2, h2, h⟩ := Res.ok_of_bind_ok h
        obtain ⟨s3, h3, h4⟩ := Res.ok_of_bind_ok h
        intro q hq
        have lift : ∀ q0 : Pos, q0 ∈ nbrs p →
            pfGet g q0.1 q0.2 = .ok (cur) ∧ ReachComp g (cur) q0 q →
            q ∈ s → pfGet g p.1 p.2 = .ok (cur) ∧ ReachComp g (cur) p q := by
          intro q0 hq0 ⟨hq0t, hr⟩ _
          exact ⟨hcur, Relation.ReflTransGen.head ⟨hq0, hq0t⟩ hr⟩
        rcases ih h4 q hq with hq3 | hr4
        · rcases ih h3 q hq3 with hq2 | hr3
          · rcases ih h2 q hq2 with hq1 | hr2
            · rcases ih h1 q hq1 with hq0 | hr1
              · rcases List.mem_cons.mp hq0 with rfl | hqs
                · exact Or.inr ⟨hcur, Relation.ReflTransGen.refl⟩
                · exact Or.inl hqs
              · exact Or.inr (lift _ (by simp [nbrs]) hr1 hq)
            · exact Or.inr (lift _ (by simp [nbrs]) hr2 hq)
          · exact Or.inr (lift _ (by simp [nbrs]) hr3 hq)
        · exact Or.inr (lift _ (by simp [nbrs]) hr4 hq)
      · rw [if_neg hct] at h
        have := Res.pure_elim h
        subst this
        exact fun q hq => Or.inl hq

theorem ext_complete {n : Nat} {g : Grid} {t : Tile} {p : Pos} {s : List Pos}
    (h : extendTileset g t n p [] = .ok s) (hp : pfGet g p.1 p.2 = .ok t) :
    ∀ q, ReachComp g t p q → q ∈ s := by
  intro q hq
  induction hq with
  | refl => exact ext_seed_mem h hp
  | tail hab hbc ih =>
    exact ext_closed h _ ih (List.not_mem_nil _) _ hbc.1 hbc.2

/-- A successful flood fill started from an erasable seed with the empty
set computes exactly the maximal 4-connected equal-kind component of the
seed. -/
theorem ext_component {n : Nat} {g : Grid} {t : Tile} {p : Pos} {s : List Pos}
    (h : extendTileset g t n p [] = .ok s) (hp : pfGet g p.1 p.2 = .ok t) :
    ∀ q, q ∈ s ↔ ReachComp g t p q := by
  intro q
  constructor
  · intro hq
    rcases ext_reach h q hq with hc | hc
    · exact absurd hc (List.not_mem_nil q)
    · exact hc.2
  · exact ext_complete h hp q

theorem Res.ok_inj {α : Type} {a b : α} (h : (Res.ok a : Res α) = .ok b) : a = b := by
  cases h; rfl

/-- Clearing a component sets exactly its cells to Empty. -/
theorem clearCells_get : ∀ {s : List Pos} {g g' : Grid}, clearCells s g = .ok g' →
    ∀ x y, pfGet g' x y = if ((x, y) : Pos) ∈ s then .ok tileEmpty else pfGet g x y := by
  intro s
  induction s with
  | nil =>
    intro g g' h x y
    have := Res.pure_elim h
    subst this
    simp
  | cons p ps ih =>
    intro g g' h x y
    unfold clearCells foldSt at h
    obtain ⟨g1, hg1, hrest⟩ := Res.ok_of_bind_ok h
    have hrec : clearCells ps g1 = .ok g' := hrest
    rw [ih hrec x y, pfGet_pfSet hg1 x y]
    by_cases hmem : ((x, y) : Pos) ∈ ps
    · rw [if_pos hmem, if_pos (List.mem_cons_of_mem p hmem)]
    · rw [if_neg hmem]
      by_cases hp : x = p.1 ∧ y = p.2
      · have hpp : ((x, y) : Pos) = p := Prod.ext hp.1 hp.2
        rw [if_pos hp, if_pos (hpp ▸ List.mem_cons_self p ps)]
      · have hpp : ((x, y) : Pos) ≠ p := by
          intro hc
          exact hp ⟨congrArg Prod.fst hc, congrArg Prod.snd hc⟩
        rw [if_neg hp, if_neg (by
          intro hc
          rcases List.mem_cons.mp hc with hc' | hc'
          · exact hpp hc'
          · exact hmem hc')]

-- ================================================
-- Claim C2: the removal pass removes exact flood-fill components

/-- C2: the body of the removal pass, at a cell `(x, y)` currently holding
tile `t`: a non-erasable tile never seeds a flood fill (the cell is
skipped); an erasable tile seeds a flood fill whose result is exactly the
maximal 4-connected component of equal-kind cells containing `(x, y)`,
with no cell double-counted (the set is duplicate-free); if the component
has at least two cells, every one of its cells — and nothing else — is set
to Empty and the pass records a change; a smaller component leaves the
board untouched. -/
theorem removeStep_component (g : Grid) (ch : Bool) (y x : Int) (g' : Grid) (ch' : Bool)
    (t : Tile) (s : List Pos)
    (h : removeStep g ch y x = .ok (g', ch'))
    (ht : pfGet g x y = .ok t)
    (hs : isErasable t = true → extendTileset g t floodFuel (x, y) [] = .ok s) :
    (isErasable t = false → g' = g ∧ ch' = ch) ∧
    (isErasable t = true →
      s.Nodup ∧
      (∀ q, q ∈ s ↔ ReachComp g t (x, y) q) ∧
      (2 ≤ s.length → ch' = true ∧
        ∀ x' y', pfGet g' x' y' = if ((x', y') : Pos) ∈ s then .ok tileEmpty else pfGet g x' y') ∧
      (s.length < 2 → g' = g ∧ ch' = ch)) := by
  constructor
  · intro hne
    rcases removeStep_elim h with ⟨t', ht', he', hg, hc⟩ | ⟨t', s', ht', he', _, _, hg, hc⟩ |
      ⟨t', s', ht', he', _, _, _, hc⟩
    · exact ⟨hg, hc⟩
    · have htt : t' = t := by rw [ht'] at ht; exact Res.ok_inj ht
      rw [htt, hne] at he'
      exact absurd he' (by decide)
    · have htt : t' = t := by rw [ht'] at ht; exact Res.ok_inj ht
      rw [htt, hne] at he'
      exact absurd he' (by decide)
  · intro he
    have hss := hs he
    have hnodup : s.Nodup := (ext_props hss).2.2 List.nodup_nil
    have hcomp := ext_component hss ht
    rcases removeStep_elim h with ⟨t', ht', he', hg, hc⟩ | ⟨t', s', ht', he', hs', hlen, hg, hc⟩ |
      ⟨t', s', ht', he', hs', hlen, hclear, hc⟩
    · have htt : t' = t := by rw [ht'] at ht; exact Res.ok_inj ht
      rw [htt, he] at he'
      exact absurd he' (by decide)
    · have htt : t' = t := by rw [ht'] at ht; exact Res.ok_inj ht
      subst htt
      have hseq : s' = s := by rw [hs'] at hss; exact Res.ok_inj hss
      subst hseq
      exact ⟨hnodup, hcomp, fun hge => absurd hge (by omega), fun _ => ⟨hg, hc⟩⟩
    · have htt : t' = t := by rw [ht'] at ht; exact Res.ok_inj ht
      subst htt
      have hseq : s' = s := by rw [hs'] at hss; exact Res.ok_inj hss
      subst hseq
      exact ⟨hnodup, hcomp,
        fun _ => ⟨hc, fun x' y' => clearCells_get hclear x' y'⟩,
        fun hlt => absurd hlen (by omega)⟩

set_option maxRecDepth 8000 in
theorem twoDSlid_flood : extendTileset twoDSlidG tile1 floodFuel (2, 10) [] =
    .ok [(3, 10), (2, 10)] := by decide

set_option maxRecDepth 8000 in
theorem twoDSlid_removeStep : removeStep twoDSlidG false 10 2 = .ok (twoDAfterG, true) := by
  decide

/-- Witness for C2 at a concrete input: on the slid two-Diamond board the
seed `(2,10)` floods to the component `[(3,10), (2,10)]`, which is
duplicate-free, contains its seed's neighbour exactly as the reachability
component does, and is cleared to Empty. -/
theorem removeStep_component_witness :
    List.Nodup [((3 : Int), (10 : Int)), (2, 10)] ∧
    (((3, 10) : Pos) ∈ [((3 : Int), (10 : Int)), (2, 10)] ↔
      ReachComp twoDSlidG tile1 (2, 10) (3, 10)) ∧
    (true = true ∧ pfGet twoDAfterG 3 10 =
      (if ((3, 10) : Pos) ∈ [((3 : Int), (10 : Int)), (2, 10)] then .ok tileEmpty
       else pfGet twoDSlidG 3 10)) :=
  have T := removeStep_component twoDSlidG false 10 2 twoDAfterG true tile1
    [(3, 10), (2, 10)] twoDSlid_removeStep (by decide) (fun _ => twoDSlid_flood)
  have T2 := T.2 (by decide)
  ⟨T2.1, T2.2.1 (3, 10), (T2.2.2.1 (by decide)).1, (T2.2.2.1 (by decide)).2 3 10⟩

-- ================================================
-- Move-generator characterization (claim C6)

/-- Unfolding of one direction of the generator scan, relative to the scan
start `x2`: the moves produced are exactly those onto the `k`-th column of
the scan such that all scanned cells up to it are Empty and no earlier
candidate triggered the stop test. -/
theorem movesDir_mem : ∀ {n : Nat} {g : Grid} {t : Tile} {y x dirX x2 : Int} {L : List Move},
    movesDir g t y x dirX x2 n = .ok L →
    ∀ m : Move, m ∈ L ↔
      ∃ k : Nat, m = ⟨y, x, x2 + dirX * k⟩ ∧
        (∀ i : Nat, i ≤ k → pfGet g (x2 + dirX * i) y = .ok tileEmpty) ∧
        (∀ i : Nat, i < k → ¬ stopBelow g t y (x2 + dirX * i)) := by
  intro n
  induction n with
  | zero => intro g t y x dirX x2 L h; simp [movesDir] at h
  | succ n ih =>
    intro g t y x dirX x2 L h
    unfold movesDir at h
    obtain ⟨c, hc, h⟩ := Res.ok_of_bind_ok h
    by_cases hce : c = tileEmpty
    · rw [if_pos hce] at h
      subst hce
      obtain ⟨below, hb, h⟩ := Res.ok_of_bind_ok h
      by_cases hstop : below = tileEmpty ∨ below = t
      · rw [if_pos hstop] at h
        have := Res.pure_elim h
        subst this
        intro m
        constructor
        · intro hm
          rw [List.mem_singleton] at hm
          subst hm
          refine ⟨0, by simp, ?_, fun i hi => absurd hi (Nat.not_lt_zero i)⟩
          intro i hi
          have hi0 : i = 0 := Nat.le_zero.mp hi
          subst hi0
          simpa using hc
        · rintro ⟨k, hm', hall, hnostop⟩
          cases k with
          | zero =>
            rw [hm']
            simp
          | succ k =>
            exfalso
            apply hnostop 0 (Nat.succ_pos k)
            unfold stopBelow
            rw [show x2 + dirX * ((0 : Nat) : Int) = x2 from by simp]
            rcases hstop with hs | hs
            · exact Or.inl (hs ▸ hb)
            · exact Or.inr (hs ▸ hb)
      · rw [if_neg hstop] at h
        obtain ⟨rest, hrest, h⟩ := Res.ok_of_bind_ok h
        have := Res.pure_elim h
        subst this
        intro m
        constructor
        · intro hm
          rcases List.mem_cons.mp hm with rfl | hm
          · refine ⟨0, by simp, ?_, fun i hi => absurd hi (Nat.not_lt_zero i)⟩
            intro i hi
            have hi0 : i = 0 := Nat.le_zero.mp hi
            subst hi0
            simpa using hc
          · obtain ⟨k, hm', hall, hnostop⟩ := (ih hrest m).mp hm
            refine ⟨k + 1, ?_, ?_, ?_⟩
            · rw [hm', Move.mk.injEq]
              refine ⟨rfl, rfl, ?_⟩
              push_cast
              ring
            · intro i hi
              cases i with
              | zero => simpa using hc
              | succ i =>
                have hshift : x2 + dirX * ((i + 1 : Nat) : Int) = x2 + dirX + dirX * (i : Int) := by
                  push_cast
                  ring
                rw [hshift]
                exact hall i (by omega)
            · intro i hi
              cases i with
              | zero =>
                intro hcon
                rw [show x2 + dirX * ((0 : Nat) : Int) = x2 from by simp] at hcon
                unfold stopBelow at hcon
                rcases hcon with hcon | hcon
                · rw [hcon] at hb
                  exact hstop (Or.inl (Res.ok_inj hb).symm)
                · rw [hcon] at hb
                  exact hstop (Or.inr (Res.ok_inj hb).symm)
              | succ i =>
                have hshift : x2 + dirX * ((i + 1 : Nat) : Int) = x2 + dirX + dirX * (i : Int) := by
                  push_cast
                  ring
                rw [hshift]
                exact hnostop i (by omega)
        · rintro ⟨k, hm', hall, hnostop⟩
          cases k with
          | zero =>
            have : m = ⟨y, x, x2⟩ := by
              rw [hm']
              simp
            rw [this]
            exact List.mem_cons_self _ _
          | succ k =>
            refine List.mem_cons_of_mem _ ((ih hrest m).mpr ⟨k, ?_, ?_, ?_⟩)
            · rw [hm', Move.mk.injEq]
              refine ⟨rfl, rfl, ?_⟩
              push_cast
              ring
            · intro i hi
              have hshift : x2 + dirX + dirX * (i : Int) = x2 + dirX * ((i + 1 : Nat) : Int) := by
                push_cast
                ring
              rw [hshift]
              exact hall (i + 1) (by omega)
            · intro i hi
              have hshift : x2 + dirX + dirX * (i : Int) = x2 + dirX * ((i + 1 : Nat) : Int) := by
                push_cast
                ring
              rw [hshift]
              exact hnostop (i + 1) (by omega)
    · rw [if_neg hce] at h
      have := Res.pure_elim h
      subst this
      intro m
      simp only [List.not_mem_nil, false_iff]
      rintro ⟨k, hm', hall, hnostop⟩
      have h0 := hall 0 (Nat.zero_le k)
      rw [show x2 + dirX * ((0 : Nat) : Int) = x2 from by simp] at h0
      rw [h0] at hc
      exact hce (Res.ok_inj hc).symm

theorem mem_upList {n : Nat} {a : Int} : a ∈ upList n ↔ 0 ≤ a ∧ a < n := by
  unfold upList
  simp only [List.mem_map, List.mem_range, Int.ofNat_eq_natCast]
  constructor
  · rintro ⟨k, hk, rfl⟩
    exact ⟨Int.natCast_nonneg k, by exact_mod_cast hk⟩
  · rintro ⟨h0, hn⟩
    exact ⟨a.toNat, by omega, by omega⟩

theorem movesStep_elim {g : Grid} {acc : List Move} {y x : Int} {acc' : List Move}
    (h : movesStep g acc y x = .ok acc') :
    (∃ t, pfGet g x y = .ok t ∧ isMobile t = false ∧ acc' = acc) ∨
    (∃ t l r, pfGet g x y = .ok t ∧ isMobile t = true ∧
      movesDir g t y x (-1) (x - 1) moveFuel = .ok l ∧
      movesDir g t y x 1 (x + 1) moveFuel = .ok r ∧ acc' = acc ++ l ++ r) := by
  unfold movesStep at h
  obtain ⟨t, ht, h⟩ := Res.ok_of_bind_ok h
  by_cases hm : isMobile t
  · rw [if_pos hm] at h
    obtain ⟨l, hl, h⟩ := Res.ok_of_bind_ok h
    obtain ⟨r, hr, h⟩ := Res.ok_of_bind_ok h
    have := Res.pure_elim h
    exact Or.inr ⟨t, l, r, ht, hm, hl, hr, this.symm⟩
  · rw [if_neg hm] at h
    have := Res.pure_elim h
    exact Or.inl ⟨t, ht, by simpa using hm, this.symm⟩

theorem movesStep_mem {g : Grid} {acc : List Move} {y x : Int} {acc' : List Move}
    (h : movesStep g acc y x = .ok acc') (m : Move) :
    m ∈ acc' ↔ m ∈ acc ∨ genAt g y x m := by
  rcases movesStep_elim h with ⟨t, ht, hnm, rfl⟩ | ⟨t, l, r, ht, hmob, hl, hr, rfl⟩
  · constructor
    · exact Or.inl
    · rintro (hm | ⟨t', ht', hmob', hdir⟩)
      · exact hm
      · have htt : t' = t := by rw [ht'] at ht; exact Res.ok_inj ht
        rw [htt, hnm] at hmob'
        exact absurd hmob' (by decide)
  · simp only [List.mem_append]
    constructor
    · rintro ((hm | hm) | hm)
      · exact Or.inl hm
      · exact Or.inr ⟨t, ht, hmob, Or.inl ⟨l, hl, hm⟩⟩
      · exact Or.inr ⟨t, ht, hmob, Or.inr ⟨r, hr, hm⟩⟩
    · rintro (hm | ⟨t', ht', hmob', ⟨L, hL, hm⟩ | ⟨L, hL, hm⟩⟩)
      · exact Or.inl (Or.inl hm)
      · have htt : t' = t := by rw [ht'] at ht; exact Res.ok_inj ht
        subst htt
        have : L = l := by rw [hL] at hl; exact Res.ok_inj hl
        subst this
        exact Or.inl (Or.inr hm)
      · have htt : t' = t := by rw [ht'] at ht; exact Res.ok_inj ht
        subst htt
        have : L = r := by rw [hL] at hr; exact Res.ok_inj hr
        subst this
        exact Or.inr hm

theorem foldSt_mem_acc {α : Type} (Q : α → Move → Prop) {step : List Move → α → Res (List Move)}
    (hstep : ∀ acc a acc', step acc a = .ok acc' → ∀ m, (m ∈ acc' ↔ m ∈ acc ∨ Q a m)) :
    ∀ {l : List α} {acc acc' : List Move}, foldSt step l acc = .ok acc' →
      ∀ m, m ∈ acc' ↔ m ∈ acc ∨ ∃ a ∈ l, Q a m := by
  intro l
  induction l with
  | nil =>
    intro acc acc' h m
    have := Res.pure_elim h
    subst this
    simp
  | cons a l ih =>
    intro acc acc' h m
    unfold foldSt at h
    obtain ⟨acc1, h1, h2⟩ := Res.ok_of_bind_ok h
    have h3 := hstep _ _ _ h1 m
    rw [ih h2 m]
    constructor
    · rintro (hm | ⟨b, hb, hq⟩)
      · rcases h3.mp hm with hm' | hq'
        · exact Or.inl hm'
        · exact Or.inr ⟨a, List.mem_cons_self _ _, hq'⟩
      · exact Or.inr ⟨b, List.mem_cons_of_mem a hb, hq⟩
    · rintro (hm | ⟨b, hb, hq⟩)
      · exact Or.inl (h3.mpr (Or.inl hm))
      · rcases List.mem_cons.mp hb with rfl | hb'
        · exact Or.inl (h3.mpr (Or.inr hq))
        · exact Or.inr ⟨b, hb', hq⟩

theorem foldSt_steps_ok {σ α : Type} {step : σ → α → Res σ} : ∀ {l : List α} {s s' : σ},
    foldSt step l s = .ok s' → ∀ a ∈ l, ∃ t t', step t a = .ok t' := by
  intro l
  induction l with
  | nil => intro s s' _ a ha; exact absurd ha (List.not_mem_nil a)
  | cons b l ih =>
    intro s s' h a ha
    unfold foldSt at h
    obtain ⟨s1, h1, h2⟩ := Res.ok_of_bind_ok h
    rcases List.mem_cons.mp ha with rfl | ha'
    · exact ⟨s, s1, h1⟩
    · exact ih h2 a ha'

theorem possibleMoves_mem {g : Grid} {ms : List Move} (h : possibleMoves g = .ok ms)
    (m : Move) : m ∈ ms ↔ ∃ y ∈ upList 12, ∃ x ∈ upList 12, genAt g y x m := by
  unfold possibleMoves at h
  have outer := foldSt_mem_acc (fun y m => ∃ x ∈ upList 12, genAt g y x m)
    (fun acc y acc' hstep m' =>
      foldSt_mem_acc (fun x m'' => genAt g y x m'')
        (fun acc2 x acc2' hstep2 m'' => movesStep_mem hstep2 m'') hstep m') h m
  rw [outer]
  simp

-- ================================================
-- Claim C6: the move generator

/-- C6: a move is generated iff it moves a mobile tile at `(x, y)` in the
12×12 play area horizontally (`dirX = -1` for the leftward scan, which runs
first, then `dirX = 1`) onto the `(k+1)`-st consecutive Empty cell of row
`y`, where no earlier candidate of that direction triggered the stop test
(cell below Empty, or cell below holding the moving tile's kind — the
candidate at which the test fires is still included).  In particular every
generated move targets an Empty cell, never a Wall or Background cell. -/
theorem possibleMoves_spec (g : Grid) (ms : List Move) (m : Move)
    (h : possibleMoves g = .ok ms) :
    (m ∈ ms ↔
      ∃ t, 0 ≤ m.fromY ∧ m.fromY ≤ 11 ∧ 0 ≤ m.fromX ∧ m.fromX ≤ 11 ∧
        pfGet g m.fromX m.fromY = .ok t ∧ isMobile t = true ∧
        ∃ dirX, (dirX = -1 ∨ dirX = 1) ∧
          ∃ k : Nat, m.toX = m.fromX + dirX * (k + 1) ∧
            (∀ i : Nat, i ≤ k → pfGet g (m.fromX + dirX * (i + 1)) m.fromY = .ok tileEmpty) ∧
            (∀ i : Nat, i < k → ¬ stopBelow g t m.fromY (m.fromX + dirX * (i + 1)))) ∧
    (m ∈ ms → pfGet g m.toX m.fromY = .ok tileEmpty) := by
  have main : m ∈ ms ↔
      ∃ t, 0 ≤ m.fromY ∧ m.fromY ≤ 11 ∧ 0 ≤ m.fromX ∧ m.fromX ≤ 11 ∧
        pfGet g m.fromX m.fromY = .ok t ∧ isMobile t = true ∧
        ∃ dirX, (dirX = -1 ∨ dirX = 1) ∧
          ∃ k : Nat, m.toX = m.fromX + dirX * (k + 1) ∧
            (∀ i : Nat, i ≤ k → pfGet g (m.fromX + dirX * (i + 1)) m.fromY = .ok tileEmpty) ∧
            (∀ i : Nat, i < k → ¬ stopBelow g t m.fromY (m.fromX + dirX * (i + 1))) := by
    rw [possibleMoves_mem h m]
    constructor
    · rintro ⟨y, hy, x, hx, t, ht, hmob, hcase⟩
      obtain ⟨hy0, hy1⟩ := mem_upList.mp hy
      obtain ⟨hx0, hx1⟩ := mem_upList.mp hx
      rcases hcase with ⟨L, hL, hm⟩ | ⟨L, hL, hm⟩
      · obtain ⟨k, hmk, hall, hnostop⟩ := (movesDir_mem hL m).mp hm
        subst hmk
        refine ⟨t, show (0 : Int) ≤ y by omega, show (y : Int) ≤ 11 by omega,
          show (0 : Int) ≤ x by omega, show (x : Int) ≤ 11 by omega, ht, hmob,
          -1, Or.inl rfl, k, ?_, ?_, ?_⟩
        · show x - 1 + (-1) * (k : Int) = x + (-1) * ((k : Int) + 1)
          ring
        · intro i hi
          have e : x + (-1) * ((i : Int) + 1) = x - 1 + (-1) * (i : Int) := by ring
          show pfGet g (x + (-1) * ((i : Int) + 1)) y = .ok tileEmpty
          rw [e]
          exact hall i hi
        · intro i hi
          have e : x + (-1) * ((i : Int) + 1) = x - 1 + (-1) * (i : Int) := by ring
          show ¬ stopBelow g t y (x + (-1) * ((i : Int) + 1))
          rw [e]
          exact hnostop i hi
      · obtain ⟨k, hmk, hall, hnostop⟩ := (movesDir_mem hL m).mp hm
        subst hmk
        refine ⟨t, show (0 : Int) ≤ y by omega, show (y : Int) ≤ 11 by omega,
          show (0 : Int) ≤ x by omega, show (x : Int) ≤ 11 by omega, ht, hmob,
          1, Or.inr rfl, k, ?_, ?_, ?_⟩
        · show x + 1 + 1 * (k : Int) = x + 1 * ((k : Int) + 1)
          ring
        · intro i hi
          have e : x + 1 * ((i : Int) + 1) = x + 1 + 1 * (i : Int) := by ring
          show pfGet g (x + 1 * ((i : Int) + 1)) y = .ok tileEmpty
          rw [e]
          exact hall i hi
        · intro i hi
          have e : x + 1 * ((i : Int) + 1) = x + 1 + 1 * (i : Int) := by ring
          show ¬ stopBelow g t y (x + 1 * ((i : Int) + 1))
          rw [e]
          exact hnostop i hi
    · rintro ⟨t, h1, h2, h3, h4, ht, hmob, dirX, hdir, k, htox, hall, hnostop⟩
      refine ⟨m.fromY, mem_upList.mpr ⟨h1, by omega⟩, m.fromX,
        mem_upList.mpr ⟨h3, by omega⟩, t, ht, hmob, ?_⟩
      unfold possibleMoves at h
      obtain ⟨accY, accY', hstepY⟩ := foldSt_steps_ok h m.fromY (mem_upList.mpr ⟨h1, by omega⟩)
      obtain ⟨accX, accX', hstepX⟩ := foldSt_steps_ok hstepY m.fromX
        (mem_upList.mpr ⟨h3, by omega⟩)
      rcases movesStep_elim hstepX with ⟨t', ht', hnm, _⟩ | ⟨t', l, r, ht', hmob', hl, hr, _⟩
      · have htt : t' = t := by rw [ht'] at ht; exact Res.ok_inj ht
        rw [htt, hmob] at hnm
        exact absurd hnm (by decide)
      · have htt : t' = t := by rw [ht'] at ht; exact Res.ok_inj ht
        subst htt
        have hmeta : m = ⟨m.fromY, m.fromX, m.toX⟩ := rfl
        rcases hdir with rfl | rfl
        · refine Or.inl ⟨l, hl, (movesDir_mem hl m).mpr ⟨k, ?_, ?_, ?_⟩⟩
          · rw [hmeta, htox, Move.mk.injEq]
            refine ⟨rfl, rfl, by ring⟩
          · intro i hi
            have e : m.fromX - 1 + (-1) * (i : Int) = m.fromX + (-1) * ((i : Int) + 1) := by ring
            rw [e]
            exact hall i hi
          · intro i hi
            have e : m.fromX - 1 + (-1) * (i : Int) = m.fromX + (-1) * ((i : Int) + 1) := by ring
            rw [e]
            exact hnostop i hi
        · refine Or.inr ⟨r, hr, (movesDir_mem hr m).mpr ⟨k, ?_, ?_, ?_⟩⟩
          · rw [hmeta, htox, Move.mk.injEq]
            refine ⟨rfl, rfl, by ring⟩
          · intro i hi
            have e : m.fromX + 1 + 1 * (i : Int) = m.fromX + 1 * ((i : Int) + 1) := by ring
            rw [e]
            exact hall i hi
          · intro i hi
            have e : m.fromX + 1 + 1 * (i : Int) = m.fromX + 1 * ((i : Int) + 1) := by ring
            rw [e]
            exact hnostop i hi
  refine ⟨main, ?_⟩
  intro hm
  obtain ⟨t, _, _, _, _, _, _, dirX, _, k, htox, hall, _⟩ := main.mp hm
  have := hall k (le_refl k)
  rw [← htox] at this
  exact this

/-- Witness for C6 at a concrete input: on the two-Diamond board, the move
of the Diamond at `(1, 10)` one cell to the right is generated (the scan
stops there because the cell below the next candidate holds a Diamond),
and it targets an Empty cell. -/
theorem possibleMoves_spec_witness :
    ((⟨10, 1, 2⟩ : Move) ∈ [(⟨10, 1, 2⟩ : Move), ⟨10, 3, 2⟩] ↔
      ∃ t, 0 ≤ (10 : Int) ∧ (10 : Int) ≤ 11 ∧ 0 ≤ (1 : Int) ∧ (1 : Int) ≤ 11 ∧
        pfGet twoDG 1 10 = .ok t ∧ isMobile t = true ∧
        ∃ dirX, (dirX = -1 ∨ dirX = 1) ∧
          ∃ k : Nat, (2 : Int) = 1 + dirX * (k + 1) ∧
            (∀ i : Nat, i ≤ k → pfGet twoDG (1 + dirX * (i + 1)) 10 = .ok tileEmpty) ∧
            (∀ i : Nat, i < k → ¬ stopBelow twoDG t 10 (1 + dirX * (i + 1)))) ∧
    pfGet twoDG 2 10 = .ok tileEmpty :=
  have T := possibleMoves_spec twoDG [⟨10, 1, 2⟩, ⟨10, 3, 2⟩] ⟨10, 1, 2⟩ twoD_moves
  ⟨T.1, T.2 (List.mem_cons_self _ _)⟩

-- ================================================
-- Border ring: construction facts

theorem borderOK_of_b {g : Grid} (hb : borderOKb g = true) : BorderOK g := by
  intro r c hbc
  obtain ⟨hd, hr0, hr13, hc0, hc13⟩ := hbc
  have hrmem : r ∈ upList 14 := mem_upList.mpr ⟨hr0, by omega⟩
  have hcmem : c ∈ upList 14 := mem_upList.mpr ⟨hc0, by omega⟩
  unfold borderOKb at hb
  rw [List.all_eq_true] at hb
  have h1 := hb r hrmem
  rw [List.all_eq_true] at h1
  have h2 := h1 c hcmem
  rw [Bool.or_eq_true, Bool.not_eq_true', decide_eq_false_iff_not, decide_eq_true_eq] at h2
  rcases h2 with h2 | h2
  · exact absurd ⟨hd, hr0, hr13, hc0, hc13⟩ h2
  · exact h2

set_option maxRecDepth 4000 in
theorem fill_eval : fill zeroGrid tileBg = .ok filledGrid := by decide

theorem filledGrid_good : Good filledGrid := ⟨by decide, borderOK_of_b (by decide)⟩

theorem twoDG_good : Good twoDG := ⟨by decide, borderOK_of_b (by decide)⟩

/-- Writing inside the play area leaves every border cell untouched. -/
theorem pfSet_border_pres {g : Grid} {x y : Int} {t : Tile} {g' : Grid}
    (h : pfSet g x y t = .ok g') (hx0 : 0 ≤ x) (hx1 : x ≤ 11) (hy0 : 0 ≤ y) (hy1 : y ≤ 11) :
    ∀ r c, borderCell r c → rawGet g' r c = rawGet g r c := by
  intro r c hbc
  obtain ⟨hd, _, _, _, _⟩ := hbc
  rw [rawGet_rawSet h r c, if_neg ?_]
  rintro ⟨rfl, rfl⟩
  rcases hd with e | e | e | e <;> omega

theorem setRowData_wf : ∀ {row : List Tile} {g : Grid} {y x : Int} {g' : Grid},
    setRowData g y x row = .ok g' → Wf g → Wf g' := by
  intro row
  induction row with
  | nil =>
    intro g y x g' h hw
    have := Res.pure_elim h
    subst this
    exact hw
  | cons t ts ih =>
    intro g y x g' h hw
    unfold setRowData at h
    obtain ⟨g1, h1, h2⟩ := Res.ok_of_bind_ok h
    exact ih h2 (hw.pfSet h1)

theorem setRowData_border : ∀ {row : List Tile} {g : Grid} {y x : Int} {g' : Grid},
    setRowData g y x row = .ok g' → 0 ≤ x → 0 ≤ y → y ≤ 11 → x + row.length ≤ 12 →
    ∀ r c, borderCell r c → rawGet g' r c = rawGet g r c := by
  intro row
  induction row with
  | nil =>
    intro g y x g' h _ _ _ _ r c _
    have := Res.pure_elim h
    subst this
    rfl
  | cons t ts ih =>
    intro g y x g' h hx0 hy0 hy1 hlen r c hbc
    unfold setRowData at h
    obtain ⟨g1, h1, h2⟩ := Res.ok_of_bind_ok h
    have hlen' : ts.length + 1 = (t :: ts).length := by simp
    rw [ih h2 (by omega) hy0 hy1 (by simp at hlen ⊢; omega) r c hbc]
    exact pfSet_border_pres h1 hx0 (by simp at hlen; omega) hy0 hy1 r c hbc

theorem setRowsData_wf : ∀ {rows : List (List Tile)} {g : Grid} {y : Int} {g' : Grid},
    setRowsData g y rows = .ok g' → Wf g → Wf g' := by
  intro rows
  induction rows with
  | nil =>
    intro g y g' h hw
    have := Res.pure_elim h
    subst this
    exact hw
  | cons row rows ih =>
    intro g y g' h hw
    unfold setRowsData at h
    obtain ⟨g1, h1, h2⟩ := Res.ok_of_bind_ok h
    exact ih h2 (setRowData_wf h1 hw)

theorem setRowsData_border : ∀ {rows : List (List Tile)} {g : Grid} {y : Int} {g' : Grid},
    setRowsData g y rows = .ok g' → 0 ≤ y → y + rows.length ≤ 12 →
    (∀ row ∈ rows, row.length ≤ 12) →
    ∀ r c, borderCell r c → rawGet g' r c = rawGet g r c := by
  intro rows
  induction rows with
  | nil =>
    intro g y g' h _ _ _ r c _
    have := Res.pure_elim h
    subst this
    rfl
  | cons row rows ih =>
    intro g y g' h hy0 hylen hrows r c hbc
    unfold setRowsData at h
    obtain ⟨g1, h1, h2⟩ := Res.ok_of_bind_ok h
    rw [ih h2 (by omega) (by simp at hylen ⊢; omega)
      (fun row' hrow' => hrows row' (List.mem_cons_of_mem row hrow')) r c hbc]
    exact setRowData_border h1 (le_refl 0) hy0 (by simp at hylen; omega)
      (by simpa using hrows row (List.mem_cons_self row rows)) r c hbc

/-- Construction invariant: a board built from valid level data is
well-formed and its padding ring holds exactly `borderVal` (Background in
the filled corner, the zero tile elsewhere). -/
theorem fromString_good {data : List (List Tile)} {g : Grid}
    (hv : ValidData data) (h : playfieldFromString data = .ok g) : Good g := by
  unfold playfieldFromString at h
  rw [fill_eval] at h
  simp only [Res.bind_ok] at h
  obtain ⟨hlen, hrows⟩ := hv
  refine ⟨setRowsData_wf h filledGrid_good.1, ?_⟩
  intro r c hbc
  rw [setRowsData_border h (le_refl 0) (by omega) (fun row hrow => (hrows row hrow).1.le) r c hbc]
  exact filledGrid_good.2 r c hbc

-- ================================================
-- Border ring: preservation by the engine

theorem foldSt_invP {σ α : Type} (P : σ → Prop) {step : σ → α → Res σ} {l : List α} {s s' : σ}
    (hstep : ∀ t a, a ∈ l → P t → ∀ t', step t a = .ok t' → P t')
    (hP : P s) (h : foldSt step l s = .ok s') : P s' :=
  foldSt_inv hstep hP h

theorem mem_rowsDown : ∀ {n : Nat} {a : Int}, a ∈ rowsDown n ↔ 1 ≤ a ∧ a ≤ n := by
  intro n
  induction n with
  | zero =>
    intro a
    simp only [rowsDown, List.not_mem_nil, false_iff]
    push_cast
    omega
  | succ n ih =>
    intro a
    simp only [rowsDown, List.mem_cons, ih]
    push_cast
    omega

theorem dropStep_pres {g : Grid} {ch : Bool} {y x : Int} {g' : Grid} {ch' : Bool} (hw : Wf g)
    (h : dropStep g ch y x = .ok (g', ch'))
    (hy : 1 ≤ y) (hy' : y ≤ 11) (hx : 0 ≤ x) (hx' : x ≤ 11) :
    Wf g' ∧ ∀ r c, borderCell r c → rawGet g' r c = rawGet g r c := by
  rcases dropStep_elim h with ⟨t, _, _, rfl, _⟩ | ⟨t, b, _, _, _, _, rfl, _⟩ |
    ⟨t, y2, g1, ht, hmob, hbe, hfd, hset1, hset2, hch⟩
  · exact ⟨hw, fun r c _ => rfl⟩
  · exact ⟨hw, fun r c _ => rfl⟩
  · obtain ⟨hy2ge, _, b2, hb2, _⟩ := fallDest_elim hfd
    have hy2le : y2 ≤ 11 := by
      obtain ⟨_, _, _, h4⟩ := pfGet_inB hw hb2
      omega
    have hw1 := hw.pfSet hset1
    refine ⟨hw1.pfSet hset2, fun r c hbc => ?_⟩
    rw [pfSet_border_pres hset2 hx hx' (by omega) hy2le r c hbc,
      pfSet_border_pres hset1 hx hx' (by omega) hy' r c hbc]

theorem dropTiles_pres {g g' : Grid} {ch' : Bool} (hw : Wf g) (h : dropTiles g = .ok (g', ch')) :
    Wf g' ∧ ∀ r c, borderCell r c → rawGet g' r c = rawGet g r c := by
  unfold dropTiles at h
  exact foldSt_invP
    (fun st : Grid × Bool => Wf st.1 ∧ ∀ r c, borderCell r c → rawGet st.1 r c = rawGet g r c)
    (by
      rintro ⟨g1, ch1⟩ yy hyy hP ⟨g2, ch2⟩ hstep
      obtain ⟨hyy1, hyy2⟩ := mem_rowsDown.mp hyy
      refine foldSt_invP
        (fun st : Grid × Bool => Wf st.1 ∧ ∀ r c, borderCell r c → rawGet st.1 r c = rawGet g r c)
        ?_ hP hstep
      rintro ⟨ga, cha⟩ xx hxx ⟨hwa, hba⟩ ⟨gb, chb⟩ hstepb
      obtain ⟨hxx1, hxx2⟩ := mem_upList.mp hxx
      obtain ⟨hwb, hbb⟩ := dropStep_pres hwa hstepb hyy1 hyy2 hxx1 (by omega)
      exact ⟨hwb, fun r c hbc => by rw [hbb r c hbc, hba r c hbc]⟩)
    ⟨hw, fun _ _ _ => rfl⟩ h

theorem clearCells_pres : ∀ {s : List Pos} {g g' : Grid}, clearCells s g = .ok g' → Wf g →
    (∀ p ∈ s, inner p.1 p.2) →
    Wf g' ∧ ∀ r c, borderCell r c → rawGet g' r c = rawGet g r c := by
  intro s
  induction s with
  | nil =>
    intro g g' h hw _
    have := Res.pure_elim h
    subst this
    exact ⟨hw, fun _ _ _ => rfl⟩
  | cons p ps ih =>
    intro g g' h hw hinner
    unfold clearCells foldSt at h
    obtain ⟨g1, h1, h2⟩ := Res.ok_of_bind_ok h
    obtain ⟨hp1, hp2, hp3, hp4⟩ := hinner p (List.mem_cons_self p ps)
    obtain ⟨hw', hagree⟩ := ih h2 (hw.pfSet h1)
      (fun q hq => hinner q (List.mem_cons_of_mem p hq))
    exact ⟨hw', fun r c hbc => by
      rw [hagree r c hbc, pfSet_border_pres h1 hp1 hp2 hp3 hp4 r c hbc]⟩

theorem removeStep_pres {g : Grid} {ch : Bool} {y x : Int} {g' : Grid} {ch' : Bool} (hw : Wf g)
    (h : removeStep g ch y x = .ok (g', ch'))
    (hy : 0 ≤ y) (hy' : y ≤ 11) (hx : 0 ≤ x) (hx' : x ≤ 11) :
    Wf g' ∧ ∀ r c, borderCell r c → rawGet g' r c = rawGet g r c := by
  rcases removeStep_elim h with ⟨t, _, _, rfl, _⟩ | ⟨t, s, _, _, _, _, rfl, _⟩ |
    ⟨t, s, ht, he, hs, hlen, hclear, hch⟩
  · exact ⟨hw, fun r c _ => rfl⟩
  · exact ⟨hw, fun r c _ => rfl⟩
  · have hsinner : ∀ p ∈ s, inner p.1 p.2 := by
      have hxy : inner x y := ⟨hx, hx', hy, hy'⟩
      exact ext_inner hw (fun q hq => absurd hq (List.not_mem_nil q)) hs
    exact clearCells_pres hclear hw hsinner

theorem removeTiles_pres {g g' : Grid} {ch' : Bool} (hw : Wf g)
    (h : removeTiles g = .ok (g', ch')) :
    Wf g' ∧ ∀ r c, borderCell r c → rawGet g' r c = rawGet g r c := by
  unfold removeTiles at h
  exact foldSt_invP
    (fun st : Grid × Bool => Wf st.1 ∧ ∀ r c, borderCell r c → rawGet st.1 r c = rawGet g r c)
    (by
      rintro ⟨g1, ch1⟩ yy hyy hP ⟨g2, ch2⟩ hstep
      obtain ⟨hyy1, hyy2⟩ := mem_upList.mp hyy
      refine foldSt_invP
        (fun st : Grid × Bool => Wf st.1 ∧ ∀ r c, borderCell r c → rawGet st.1 r c = rawGet g r c)
        ?_ hP hstep
      rintro ⟨ga, cha⟩ xx hxx ⟨hwa, hba⟩ ⟨gb, chb⟩ hstepb
      obtain ⟨hxx1, hxx2⟩ := mem_upList.mp hxx
      obtain ⟨hwb, hbb⟩ := removeStep_pres hwa hstepb hyy1 (by omega) hxx1 (by omega)
      exact ⟨hwb, fun r c hbc => by rw [hbb r c hbc, hba r c hbc]⟩)
    ⟨hw, fun _ _ _ => rfl⟩ h

theorem applyLoop_pres : ∀ {n : Nat} {g g' : Grid}, Wf g → applyLoop n g = .ok g' →
    Wf g' ∧ ∀ r c, borderCell r c → rawGet g' r c = rawGet g r c := by
  intro n
  induction n with
  | zero => intro g g' _ h; simp [applyLoop] at h
  | succ n ih =>
    intro g g' hw h
    unfold applyLoop at h
    cases hd : dropTiles g with
    | oob => rw [hd] at h; simp at h
    | fuel => rw [hd] at h; simp at h
    | ok st =>
      obtain ⟨g1, ch1⟩ := st
      rw [hd] at h
      simp only [Res.bind_ok] at h
      obtain ⟨hw1, hb1⟩ := dropTiles_pres hw hd
      cases ch1 with
      | true =>
        obtain ⟨hw', hb'⟩ := ih hw1 h
        exact ⟨hw', fun r c hbc => by rw [hb' r c hbc, hb1 r c hbc]⟩
      | false =>
        simp only [Bool.false_eq_true, if_false] at h
        cases hr : removeTiles g1 with
        | oob => rw [hr] at h; simp at h
        | fuel => rw [hr] at h; simp at h
        | ok st2 =>
          obtain ⟨g2, ch2⟩ := st2
          rw [hr] at h
          simp only [Res.bind_ok] at h
          obtain ⟨hw2, hb2⟩ := removeTiles_pres hw1 hr
          cases ch2 with
          | true =>
            obtain ⟨hw', hb'⟩ := ih hw2 h
            exact ⟨hw', fun r c hbc => by rw [hb' r c hbc, hb2 r c hbc, hb1 r c hbc]⟩
          | false =>
            simp only [Bool.false_eq_true, if_false] at h
            have := Res.pure_elim h
            subst this
            exact ⟨hw2, fun r c hbc => by rw [hb2 r c hbc, hb1 r c hbc]⟩

/-- On a board whose padding ring holds its constructed (never Empty)
values, an Empty cell on a play-area row lies in a play-area column. -/
theorem good_col_inner {g : Grid} {x y : Int} (hg : Good g)
    (hy0 : 0 ≤ y) (hy1 : y ≤ 11) (he : pfGet g x y = .ok tileEmpty) :
    0 ≤ x ∧ x ≤ 11 := by
  obtain ⟨h1, h2, h3, h4⟩ := pfGet_inB hg.1 he
  by_contra hc
  have hx : x = -1 ∨ x = 12 := by omega
  have hbc : borderCell (y + 1) (x + 1) := by
    refine ⟨?_, by omega, by omega, by omega, by omega⟩
    rcases hx with rfl | rfl
    · right; right; left; omega
    · right; right; right; omega
  have hbv := hg.2 (y + 1) (x + 1) hbc
  have he' : rawGet g (y + 1) (x + 1) = .ok tileEmpty := he
  rw [hbv] at he'
  have := Res.ok_inj he'
  unfold borderVal at this
  split at this
  · exact absurd this (by decide)
  · exact absurd this (by decide)

/-- Applying a generator-produced move to a well-formed board with intact
padding ring yields a board with the identical padding ring. -/
theorem apply_good {pf : Playfield} {m : Move} {fuel : Nat} {ms : List Move} {pf' : Playfield}
    (hg : Good pf.tiles) (hms : possibleMoves pf.tiles = .ok ms) (hm : m ∈ ms)
    (happ : apply pf m fuel = .ok pf') :
    Good pf'.tiles ∧ ∀ r c, borderCell r c → rawGet pf'.tiles r c = rawGet pf.tiles r c := by
  obtain ⟨t, g1, g2, ht, hs1, hs2, hloop, hpath⟩ := apply_elim happ
  obtain ⟨tm, hY0, hY1, hX0, hX1, _, _, _⟩ := (possibleMoves_spec _ _ m hms).1.mp hm
  have hEmpty := (possibleMoves_spec _ _ m hms).2 hm
  obtain ⟨hT0, hT1⟩ := good_col_inner hg hY0 hY1 hEmpty
  have hw1 := hg.1.pfSet hs1
  have hw2 := hw1.pfSet hs2
  obtain ⟨hw', hbloop⟩ := applyLoop_pres hw2 hloop
  have hagree : ∀ r c, borderCell r c → rawGet pf'.tiles r c = rawGet pf.tiles r c := by
    intro r c hbc
    rw [hbloop r c hbc, pfSet_border_pres hs2 hT0 hT1 hY0 hY1 r c hbc,
      pfSet_border_pres hs1 hX0 hX1 hY0 hY1 r c hbc]
  refine ⟨⟨hw', ?_⟩, hagree⟩
  intro r c hbc
  rw [hagree r c hbc]
  exact hg.2 r c hbc

-- ================================================
-- Claim C3: the padding ring

/-- Counterexample to C3 as stated: the board built from the documented
sample level is valid level data, yet its border cell at raw index `(0,0)`
holds Background, not Wall. -/
theorem border_not_wall_counterexample :
    ValidData twoDData ∧ playfieldFromString twoDData = .ok twoDG ∧
    rawGet twoDG 0 0 = .ok tileBg ∧ tileBg ≠ tileWall :=
  ⟨by decide, twoD_fromString, by decide, by decide⟩

/-- C3 amended: on every board built from valid level data the padding
ring holds exactly its constructed values — `tileBg` where `fill` reached,
the zero value `tile0` elsewhere, never Wall — and applying any
generator-produced move returns a board whose padding ring is unchanged
(a flood fill that entered the ring would panic, so a successful `apply`
never touches it). -/
theorem border_ring_invariant :
    (∀ data g, ValidData data → playfieldFromString data = .ok g →
      Good g ∧ ∀ r c, borderCell r c →
        rawGet g r c = .ok (borderVal r c) ∧ borderVal r c ≠ tileWall) ∧
    (∀ pf m fuel ms pf', Good (Playfield.tiles pf) → possibleMoves pf.tiles = .ok ms →
      m ∈ ms → apply pf m fuel = .ok pf' →
      Good pf'.tiles ∧ ∀ r c, borderCell r c → rawGet pf'.tiles r c = rawGet pf.tiles r c) := by
  constructor
  · intro data g hv h
    have hg := fromString_good hv h
    refine ⟨hg, fun r c hbc => ⟨hg.2 r c hbc, ?_⟩⟩
    unfold borderVal
    split
    · decide
    · decide
  · intro pf m fuel ms pf' hg hms hm happ
    exact apply_good hg hms hm happ

/-- Witness for C3 (amended) at concrete inputs: the two-Diamond board and
its generated move `(1,10) → (2,10)`. -/
theorem border_ring_invariant_witness :
    (Good twoDG ∧ ∀ r c, borderCell r c →
      rawGet twoDG r c = .ok (borderVal r c) ∧ borderVal r c ≠ tileWall) ∧
    (Good twoDAfterPf.tiles ∧ ∀ r c, borderCell r c →
      rawGet twoDAfterPf.tiles r c = rawGet twoDG r c) :=
  ⟨border_ring_invariant.1 twoDData twoDG (by decide) twoD_fromString,
   border_ring_invariant.2 ⟨twoDG, []⟩ twoDMove 20 [⟨10, 1, 2⟩, ⟨10, 3, 2⟩] twoDAfterPf
     twoDG_good twoD_moves (List.mem_cons_self _ _) twoD_apply⟩

-- ================================================
-- Claim C10: a tile-array access out of the 14×14 grid is reachable

set_option maxRecDepth 8000 in
theorem heart_fromString : playfieldFromString heartData = .ok heartG := by decide

set_option maxRecDepth 8000 in
theorem heart_moves : possibleMoves heartG = .ok [⟨10, 1, 2⟩, ⟨10, 3, 2⟩] := by decide

/-- C10 fails on the code: `heartData` is valid 12×12 level data and
`heartMove` is produced by the generator for it, yet applying the move
panics: the removal pass seeds a flood fill at the Heart in the rightmost
play column, the flood crosses into the zero-valued padding cell at raw
index `(11, 13)` (also a Heart), and from there reads raw index
`(11, 14)` — outside the 14×14 array (a Go index-out-of-range panic,
`.oob` in this model).  The slip is `fill`, which covers only raw indices
`0..11` instead of the whole array, leaving zero-valued Hearts in the
padding. -/
theorem flood_oob_panic :
    ValidData heartData ∧
    playfieldFromString heartData = .ok heartG ∧
    possibleMoves heartG = .ok [heartMove, ⟨10, 3, 2⟩] ∧
    extendTileset heartG tile0 floodFuel (11, 10) [] = .oob ∧
    pfGet heartG 12 10 = .ok tile0 ∧
    pfGet heartG 13 10 = .oob ∧
    apply ⟨heartG, []⟩ heartMove 20 = .oob := by
  refine ⟨by decide, heart_fromString, heart_moves, by decide, by decide, by decide, by decide⟩

-- ================================================
-- Counting cells

theorem countIn_congr {l : List Pos} {g g' : Grid} {k : Tile}
    (h : ∀ p ∈ l, pfGet g' p.1 p.2 = pfGet g p.1 p.2) : countIn l g' k = countIn l g k := by
  unfold countIn
  rw [List.filter_congr]
  intro p hp
  rw [decide_eq_decide, h p hp]

theorem countIn_cons {p : Pos} {ps : List Pos} {g : Grid} {k : Tile} :
    countIn (p :: ps) g k =
      (if pfGet g p.1 p.2 = .ok k then 1 else 0) + countIn ps g k := by
  unfold countIn
  rw [List.filter_cons]
  split
  · rename_i hdec
    rw [if_pos (of_decide_eq_true hdec)]
    simp only [List.length_cons]
    omega
  · rename_i hdec
    rw [if_neg (by simpa using hdec)]
    simp

theorem countIn_set : ∀ {l : List Pos}, l.Nodup → ∀ {g g' : Grid} {x y : Int} {v u : Tile},
    pfSet g x y v = .ok g' → pfGet g x y = .ok u → ∀ k,
    countIn l g' k + (if ((x, y) : Pos) ∈ l ∧ u = k then 1 else 0) =
      countIn l g k + (if ((x, y) : Pos) ∈ l ∧ v = k then 1 else 0) := by
  intro l
  induction l with
  | nil =>
    intro _ g g' x y v u hset hget k
    simp [countIn]
  | cons p ps ih =>
    intro hnd g g' x y v u hset hget k
    obtain ⟨hp, hnd'⟩ := List.nodup_cons.mp hnd
    have hget' := pfGet_pfSet hset
    by_cases hpe : p = ((x, y) : Pos)
    · have hxy_nin : ((x, y) : Pos) ∉ ps := hpe ▸ hp
      have hps : ∀ q ∈ ps, pfGet g' q.1 q.2 = pfGet g q.1 q.2 := by
        intro q hq
        rw [hget' q.1 q.2, if_neg]
        rintro ⟨h1, h2⟩
        have hq' : q = ((x, y) : Pos) := Prod.ext_iff.mpr ⟨h1, h2⟩
        exact hxy_nin (hq' ▸ hq)
      have hv : pfGet g' p.1 p.2 = .ok v := by
        rw [hget' p.1 p.2, hpe, if_pos ⟨rfl, rfl⟩]
      have hu : pfGet g p.1 p.2 = .ok u := by rw [hpe]; exact hget
      have hmemT : (((x, y) : Pos) ∈ p :: ps) := by
        rw [hpe]
        exact List.mem_cons_self _ _
      have hok : ∀ a b : Tile, ((Res.ok a : Res Tile) = .ok b) ↔ a = b :=
        fun a b => ⟨Res.ok_inj, fun h => h ▸ rfl⟩
      rw [countIn_cons, countIn_cons, countIn_congr hps, hv, hu]
      by_cases hvk : v = k <;> by_cases huk : u = k <;>
        simp only [hok, hvk, huk, hmemT, true_and, and_true, and_false, if_true, if_false,
          if_pos, if_neg, not_false_iff] <;>
        omega
    · have hne : pfGet g' p.1 p.2 = pfGet g p.1 p.2 := by
        rw [hget' p.1 p.2, if_neg]
        rintro ⟨h1, h2⟩
        exact hpe (Prod.ext_iff.mpr ⟨h1, h2⟩)
      have hmemiff : (((x, y) : Pos) ∈ p :: ps) ↔ (((x, y) : Pos) ∈ ps) := by
        rw [List.mem_cons]
        constructor
        · rintro (heq | h)
          · exact absurd heq.symm hpe
          · exact h
        · exact Or.inr
      have hrec := ih hnd' hset hget k
      rw [countIn_cons, countIn_cons, hne]
      simp only [hmemiff]
      by_cases hpk : pfGet g p.1 p.2 = .ok k <;>
        by_cases hin : (((x, y) : Pos) ∈ ps) <;> by_cases huk : u = k <;> by_cases hvk : v = k <;>
        simp only [hpk, hin, huk, hvk, true_and, and_true, false_and, and_false, if_true,
          if_false] at hrec ⊢ <;>
        omega

theorem upList_nodup {n : Nat} : (upList n).Nodup := by
  unfold upList
  refine (List.nodup_range n).map (fun a b h => ?_)
  rw [Int.ofNat_eq_natCast, Int.ofNat_eq_natCast] at h
  exact_mod_cast h

theorem colPos_nodup {x : Int} : (colPos x).Nodup := by
  unfold colPos
  exact upList_nodup.map (fun a b h => congrArg Prod.snd h)

theorem mem_colPos {x : Int} {p : Pos} : p ∈ colPos x ↔ p.1 = x ∧ 0 ≤ p.2 ∧ p.2 ≤ 11 := by
  unfold colPos
  simp only [List.mem_map]
  constructor
  · rintro ⟨y, hy, rfl⟩
    obtain ⟨h1, h2⟩ := mem_upList.mp hy
    exact ⟨rfl, h1, by omega⟩
  · rintro ⟨h1, h2, h3⟩
    exact ⟨p.2, mem_upList.mpr ⟨h2, by omega⟩, by rw [← h1]⟩

theorem mem_playPos {p : Pos} : p ∈ playPos ↔ inner p.1 p.2 := by
  unfold playPos
  rw [List.mem_flatMap]
  constructor
  · rintro ⟨y, hy, hp⟩
    obtain ⟨x, hx, rfl⟩ := List.mem_map.mp hp
    obtain ⟨hy1, hy2⟩ := mem_upList.mp hy
    obtain ⟨hx1, hx2⟩ := mem_upList.mp hx
    exact ⟨hx1, by omega, hy1, by omega⟩
  · rintro ⟨h1, h2, h3, h4⟩
    exact ⟨p.2, mem_upList.mpr ⟨h3, by omega⟩,
      List.mem_map.mpr ⟨p.1, mem_upList.mpr ⟨h1, by omega⟩, rfl⟩⟩

set_option maxRecDepth 8000 in
theorem playPos_nodup : playPos.Nodup := by decide

theorem countIn_ge {l s : List Pos} {g : Grid} {k : Tile} (hnd : s.Nodup)
    (hsub : ∀ p ∈ s, p ∈ l ∧ pfGet g p.1 p.2 = .ok k) : s.length ≤ countIn l g k := by
  unfold countIn
  calc s.length = s.toFinset.card := (List.toFinset_card_of_nodup hnd).symm
    _ ≤ (l.filter (fun p => decide (pfGet g p.1 p.2 = .ok k))).toFinset.card := by
        apply Finset.card_le_card
        intro p hp
        rw [List.mem_toFinset] at hp ⊢
        obtain ⟨h1, h2⟩ := hsub p hp
        exact List.mem_filter.mpr ⟨h1, by simpa using h2⟩
    _ ≤ (l.filter (fun p => decide (pfGet g p.1 p.2 = .ok k))).length := List.toFinset_card_le _

-- ================================================
-- Gravity pass: the no-floating-tile invariant (claim C1)

/-- Effect of one successful `dropTiles` body on the grid, drop case
included: the landing facts and a pointwise read characterization. -/
theorem dropStep_noFloat {g : Grid} {ch : Bool} {y x0 : Int} {g' : Grid} {ch' : Bool}
    (hw : Wf g) (h : dropStep g ch y x0 = .ok (g', ch'))
    (hAbove : ∀ x y', 0 ≤ x → x ≤ 11 → y < y' → y' ≤ 11 → noFloat g x y') :
    Wf g' ∧ noFloat g' x0 y ∧
    (∀ x yy, x ≠ x0 → pfGet g' x yy = pfGet g x yy) ∧
    (∀ x y', 0 ≤ x → x ≤ 11 → y < y' → y' ≤ 11 → noFloat g' x y') := by
  rcases dropStep_elim h with ⟨t, ht, hnm, rfl, _⟩ | ⟨t, b, ht, hmob, hb, hbne, rfl, _⟩ |
    ⟨t, y2, g1, ht, hmob, hbe, hfd, hset1, hset2, hch⟩
  · refine ⟨hw, ?_, fun _ _ _ => rfl, hAbove⟩
    intro t' ht' hmob'
    have : t' = t := by rw [ht] at ht'; exact (Res.ok_inj ht').symm
    rw [this, hnm] at hmob'
    exact absurd hmob' (by decide)
  · refine ⟨hw, ?_, fun _ _ _ => rfl, hAbove⟩
    intro t' ht' hmob' hbelow
    rw [hb] at hbelow
    exact hbne (Res.ok_inj hbelow)
  · obtain ⟨hy2ge, hrun, b, hb, hbne⟩ := fallDest_elim hfd
    have hy2gt : y + 1 ≤ y2 := by
      by_contra hc
      have he : y2 = y := by omega
      rw [he] at hb
      rw [hbe] at hb
      exact hbne (Res.ok_inj hb).symm
    have hy2le : y2 ≤ 11 := by
      obtain ⟨_, _, _, h4⟩ := pfGet_inB hw hb
      omega
    have hw1 := hw.pfSet hset1
    have hwg' := hw1.pfSet hset2
    have hG : ∀ a bb, pfGet g' a bb =
        if a = x0 ∧ bb = y2 then .ok t
        else if a = x0 ∧ bb = y then .ok tileEmpty
        else pfGet g a bb := by
      intro a bb
      rw [pfGet_pfSet hset2 a bb, pfGet_pfSet hset1 a bb]
    have hmobE : isMobile tileEmpty = false := by decide
    refine ⟨hwg', ?_, ?_, ?_⟩
    · intro t' ht' hmob'
      rw [hG x0 y, if_neg (by rintro ⟨_, h2⟩; omega), if_pos ⟨rfl, rfl⟩] at ht'
      have : t' = tileEmpty := (Res.ok_inj ht').symm
      rw [this, hmobE] at hmob'
      exact absurd hmob' (by decide)
    · intro x yy hx
      rw [hG x yy, if_neg (by rintro ⟨h1, _⟩; exact hx h1),
        if_neg (by rintro ⟨h1, _⟩; exact hx h1)]
    · intro x y' hx0 hx1 hygt hyle t' ht' hmob' hbelow
      by_cases hxx : x = x0
      · subst hxx
        rw [hG x y'] at ht'
        rw [hG x (y' + 1)] at hbelow
        by_cases h1 : y' = y2
        · rw [if_pos ⟨rfl, h1⟩] at ht'
          rw [if_neg (by rintro ⟨_, h2⟩; omega), if_neg (by rintro ⟨_, h2⟩; omega)] at hbelow
          rw [h1] at hbelow
          rw [hb] at hbelow
          exact hbne (Res.ok_inj hbelow)
        · rw [if_neg (by rintro ⟨_, h2⟩; exact h1 h2),
            if_neg (by rintro ⟨_, h2⟩; omega)] at ht'
          by_cases h2 : y' + 1 = y2
          · rw [if_pos ⟨rfl, h2⟩] at hbelow
            have : t = tileEmpty := Res.ok_inj hbelow
            rw [this, hmobE] at hmob
            exact absurd hmob (by decide)
          · rw [if_neg (by rintro ⟨_, h3⟩; exact h2 h3),
              if_neg (by rintro ⟨_, h3⟩; omega)] at hbelow
            exact hAbove x y' hx0 hx1 hygt hyle t' ht' hmob' hbelow
      · rw [hG x y', if_neg (by rintro ⟨h1, _⟩; exact hxx h1),
          if_neg (by rintro ⟨h1, _⟩; exact hxx h1)] at ht'
        rw [hG x (y' + 1), if_neg (by rintro ⟨h1, _⟩; exact hxx h1),
          if_neg (by rintro ⟨h1, _⟩; exact hxx h1)] at hbelow
        exact hAbove x y' hx0 hx1 hygt hyle t' ht' hmob' hbelow

/-- Processing one row of `dropTiles` establishes the no-floating-tile
property on that row and preserves it above. -/
theorem dropCells_noFloat {y : Int} :
    ∀ {xs : List Int} {g : Grid} {ch : Bool} {g' : Grid} {ch' : Bool}, Wf g →
    foldSt (fun st x => dropStep st.1 st.2 y x) xs (g, ch) = .ok (g', ch') →
    (∀ x y', 0 ≤ x → x ≤ 11 → y < y' → y' ≤ 11 → noFloat g x y') →
    (∀ x, 0 ≤ x → x ≤ 11 → x ∉ xs → noFloat g x y) →
    Wf g' ∧ (∀ x y', 0 ≤ x → x ≤ 11 → y < y' → y' ≤ 11 → noFloat g' x y') ∧
      (∀ x, 0 ≤ x → x ≤ 11 → noFloat g' x y) := by
  intro xs
  induction xs with
  | nil =>
    intro g ch g' ch' hw h hAbove hRow
    have := Res.pure_elim h
    rw [Prod.mk.injEq] at this
    rw [← this.1]
    exact ⟨hw, hAbove, fun x hx0 hx1 => hRow x hx0 hx1 (List.not_mem_nil x)⟩
  | cons x0 xs ih =>
    intro g ch g' ch' hw h hAbove hRow
    unfold foldSt at h
    obtain ⟨st1, h1, h2⟩ := Res.ok_of_bind_ok h
    obtain ⟨g1, ch1⟩ := st1
    obtain ⟨hw1, hnf0, hframe, hAbove1⟩ := dropStep_noFloat hw h1 hAbove
    refine ih hw1 h2 hAbove1 ?_
    intro x hx0 hx1 hxn
    by_cases hxx : x = x0
    · rw [hxx]
      exact hnf0
    · intro t' ht' hmob' hbelow
      rw [hframe x y hxx] at ht'
      rw [hframe x (y + 1) hxx] at hbelow
      exact hRow x hx0 hx1 (by rw [List.mem_cons]; rintro (h | h); exact hxx h; exact hxn h)
        t' ht' hmob' hbelow

/-- Processing the rows `n, n-1, …, 1` (given the rows above `n` are
already settled) settles every row `1 … 11`. -/
theorem dropRows_noFloat : ∀ {n : Nat}, n ≤ 11 →
    ∀ {g : Grid} {ch : Bool} {g' : Grid} {ch' : Bool}, Wf g →
    foldSt (fun st y => foldSt (fun st x => dropStep st.1 st.2 y x) (upList 12) st)
      (rowsDown n) (g, ch) = .ok (g', ch') →
    (∀ x y', 0 ≤ x → x ≤ 11 → (n : Int) < y' → y' ≤ 11 → noFloat g x y') →
    Wf g' ∧ ∀ x y', 0 ≤ x → x ≤ 11 → 1 ≤ y' → y' ≤ 11 → noFloat g' x y' := by
  intro n
  induction n with
  | zero =>
    intro _ g ch g' ch' hw h hAbove
    have := Res.pure_elim h
    rw [Prod.mk.injEq] at this
    rw [← this.1]
    exact ⟨hw, fun x y' hx0 hx1 hy1 hy2 => hAbove x y' hx0 hx1 (by exact_mod_cast hy1) hy2⟩
  | succ n ih =>
    intro hn g ch g' ch' hw h hAbove
    unfold rowsDown at h
    unfold foldSt at h
    obtain ⟨st1, h1, h2⟩ := Res.ok_of_bind_ok h
    obtain ⟨g1, ch1⟩ := st1
    obtain ⟨hw1, hAbove1, hRow1⟩ := dropCells_noFloat hw h1
      (fun x y' hx0 hx1 hgt hle => hAbove x y' hx0 hx1 (by push_cast at hgt ⊢; omega) hle)
      (fun x hx0 hx1 hxn => absurd (mem_upList.mpr ⟨hx0, by omega⟩) hxn)
    refine ih (by omega) hw1 h2 ?_
    intro x y' hx0 hx1 hgt hle
    by_cases hyy : y' = ((n + 1 : Nat) : Int)
    · rw [hyy]
      exact hRow1 x hx0 hx1
    · exact hAbove1 x y' hx0 hx1 (by push_cast at hyy hgt ⊢; omega) hle

/-- Per-step conservation of column-uniform cell counts by the gravity
body. -/
theorem dropStep_count {g : Grid} {ch : Bool} {y x0 : Int} {g' : Grid} {ch' : Bool}
    (hw : Wf g) (h : dropStep g ch y x0 = .ok (g', ch'))
    (hy : 0 ≤ y) (hy' : y ≤ 11)
    (l : List Pos) (hnd : l.Nodup)
    (hcl : ∀ y1 y2 : Int, 0 ≤ y1 → y1 ≤ 11 → 0 ≤ y2 → y2 ≤ 11 →
      (((x0, y1) : Pos) ∈ l ↔ ((x0, y2) : Pos) ∈ l)) :
    ∀ k, countIn l g' k = countIn l g k := by
  rcases dropStep_elim h with ⟨t, _, _, rfl, _⟩ | ⟨t, b, _, _, _, _, rfl, _⟩ |
    ⟨t, y2, g1, ht, hmob, hbe, hfd, hset1, hset2, hch⟩
  · exact fun k => rfl
  · exact fun k => rfl
  · intro k
    obtain ⟨hy2ge, hrun, b, hb, hbne⟩ := fallDest_elim hfd
    have hy2gt : y + 1 ≤ y2 := by
      by_contra hc
      have he : y2 = y := by omega
      rw [he] at hb
      rw [hbe] at hb
      exact hbne (Res.ok_inj hb).symm
    have hmid : pfGet g1 x0 y2 = .ok tileEmpty := by
      rw [pfGet_pfSet hset1, if_neg (by rintro ⟨_, h2⟩; omega)]
      exact hrun y2 (by omega) (le_refl y2)
    have eq1 := countIn_set hnd hset1 ht k
    have eq2 := countIn_set hnd hset2 hmid k
    have hy2le : y2 ≤ 11 := by
      obtain ⟨_, _, _, h4⟩ := pfGet_inB hw hb
      omega
    have hiff := hcl y2 y (by omega) hy2le hy hy'
    by_cases hm : ((x0, y) : Pos) ∈ l
    · have hm2 : ((x0, y2) : Pos) ∈ l := hiff.mpr hm
      by_cases htk : t = k <;> by_cases hek : tileEmpty = k <;>
        simp only [hm, hm2, htk, hek, true_and, and_true, false_and, and_false, if_true,
          if_false] at eq1 eq2 <;>
        omega
    · have hm2 : ((x0, y2) : Pos) ∉ l := fun hc => hm (hiff.mp hc)
      simp only [hm, hm2, false_and, if_false] at eq1 eq2
      omega

theorem dropTiles_count {g g' : Grid} {ch' : Bool} (hw : Wf g) (h : dropTiles g = .ok (g', ch'))
    (l : List Pos) (hnd : l.Nodup)
    (hcl : ∀ x y1 y2 : Int, 0 ≤ y1 → y1 ≤ 11 → 0 ≤ y2 → y2 ≤ 11 →
      (((x, y1) : Pos) ∈ l ↔ ((x, y2) : Pos) ∈ l)) :
    Wf g' ∧ ∀ k, countIn l g' k = countIn l g k := by
  unfold dropTiles at h
  exact foldSt_invP
    (fun st : Grid × Bool => Wf st.1 ∧ ∀ k, countIn l st.1 k = countIn l g k)
    (by
      rintro ⟨g1, ch1⟩ yy hyy hP ⟨g2, ch2⟩ hstep
      obtain ⟨hyy1, hyy2⟩ := mem_rowsDown.mp hyy
      refine foldSt_invP
        (fun st : Grid × Bool => Wf st.1 ∧ ∀ k, countIn l st.1 k = countIn l g k)
        ?_ hP hstep
      rintro ⟨ga, cha⟩ xx hxx ⟨hwa, hca⟩ ⟨gb, chb⟩ hstepb
      obtain ⟨hxx1, hxx2⟩ := mem_upList.mp hxx
      obtain ⟨hwb, _⟩ := dropStep_pres hwa hstepb hyy1 hyy2 hxx1 (by omega)
      refine ⟨hwb, fun k => ?_⟩
      rw [dropStep_count hwa hstepb (by omega) hyy2 l hnd (hcl xx) k, hca k])
    ⟨hw, fun _ => rfl⟩ h

-- ================================================
-- Claim C1: the gravity pass

/-- Counterexample to C1 as stated: on `topHeartG` the Heart at `(5, 0)` —
the top row — is mobile and has an Empty cell directly below it, yet a full
gravity pass leaves the board unchanged and reports no change: the loop
`for y := playfieldH - 1; y > 0; y--` never scans row 0, so the tile does
not fall. -/
theorem dropTiles_top_row_skipped :
    Wf topHeartG ∧
    pfGet topHeartG 5 0 = .ok tile0 ∧ isMobile tile0 = true ∧
    pfGet topHeartG 5 1 = .ok tileEmpty ∧
    dropTiles topHeartG = .ok (topHeartG, false) := by
  refine ⟨by decide, by decide, by decide, by decide, by decide⟩

/-- C1 amended: the gravity pass scans rows from bottom to top excluding
the *top* row (`y = 11, …, 1`; the bottom row is scanned, the top row
never is), and in a single pass every mobile tile on rows `1..11` falls
straight down in its own column onto the lowest row of the contiguous run
of Empty cells beneath it: afterwards no mobile tile on rows `1..11` has
an Empty cell directly below it, every play column keeps exactly its
multiset of tiles (tiles only move within their column), and nothing
outside the play area changes. -/
theorem dropTiles_spec (g g' : Grid) (ch' : Bool) (hw : Wf g)
    (h : dropTiles g = .ok (g', ch')) :
    (∀ x y, 0 ≤ x → x ≤ 11 → 1 ≤ y → y ≤ 11 → noFloat g' x y) ∧
    (∀ x k, colKindCount g' x k = colKindCount g x k) ∧
    (∀ r c, borderCell r c → rawGet g' r c = rawGet g r c) := by
  have h' := h
  unfold dropTiles at h'
  refine ⟨?_, ?_, (dropTiles_pres hw h).2⟩
  · have hAbove0 : ∀ x y', 0 ≤ x → x ≤ 11 → ((11 : Nat) : Int) < y' → y' ≤ 11 →
        noFloat g x y' := by
      intro x y' _ _ hgt hle
      exfalso
      push_cast at hgt
      omega
    exact fun x y hx0 hx1 hy1 hy2 =>
      (dropRows_noFloat (le_refl 11) hw h' hAbove0).2 x y hx0 hx1 hy1 hy2
  · intro x k
    refine (dropTiles_count hw h (colPos x) colPos_nodup ?_).2 k
    intro x' y1 y2 hy10 hy11 hy20 hy21
    rw [mem_colPos, mem_colPos]
    constructor
    · rintro ⟨h1, _, _⟩
      exact ⟨h1, hy20, hy21⟩
    · rintro ⟨h1, _, _⟩
      exact ⟨h1, hy10, hy11⟩

/-- Witness for C1 (amended) at a concrete input: the gravity pass of the
two-Diamond `apply` run (no tile can fall there, and the pass indeed
reports no change while every column census and the padding ring are
intact). -/
theorem dropTiles_spec_witness :
    noFloat twoDSlidG 2 10 ∧
    colKindCount twoDSlidG 3 tile1 = colKindCount twoDSlidG 3 tile1 ∧
    rawGet twoDSlidG 0 0 = rawGet twoDSlidG 0 0 :=
  have T := dropTiles_spec twoDSlidG twoDSlidG false (by decide) (by decide)
  ⟨T.1 2 10 (by decide) (by decide) (by decide) (by decide),
   T.2.1 3 tile1, T.2.2 0 0 (by decide)⟩

-- ================================================
-- Claim C7: unsolvability is invariant under play

theorem erasable_iff {k : Tile} : isErasable k = true ↔ tile0 ≤ k ∧ k ≤ tile7 := by
  unfold isErasable
  simp [Bool.and_eq_true, decide_eq_true_eq]

theorem countIn_pos {l : List Pos} {g : Grid} {k : Tile} (h : 0 < countIn l g k) :
    ∃ p ∈ l, pfGet g p.1 p.2 = .ok k := by
  unfold countIn at h
  obtain ⟨p, hp⟩ := List.exists_mem_of_length_pos h
  obtain ⟨hmem, hdec⟩ := List.mem_filter.mp hp
  exact ⟨p, hmem, of_decide_eq_true hdec⟩

theorem countIn_iff_congr {l : List Pos} {g g' : Grid} {k : Tile}
    (h : ∀ p ∈ l, (pfGet g' p.1 p.2 = .ok k ↔ pfGet g p.1 p.2 = .ok k)) :
    countIn l g' k = countIn l g k := by
  unfold countIn
  rw [List.filter_congr]
  intro p hp
  rw [decide_eq_decide]
  exact h p hp

/-- Clearing a component all of whose cells hold tile `t` does not change
the census of any kind other than `t` and Empty. -/
theorem clearCells_count {s : List Pos} {g g' : Grid} {t k : Tile}
    (h : clearCells s g = .ok g')
    (hall : ∀ p ∈ s, pfGet g p.1 p.2 = .ok t)
    (hkt : k ≠ t) (hke : k ≠ tileEmpty) (l : List Pos) :
    countIn l g' k = countIn l g k := by
  apply countIn_iff_congr
  rintro ⟨x, y⟩ _
  rw [clearCells_get h x y]
  by_cases hm : ((x, y) : Pos) ∈ s
  · rw [if_pos hm]
    constructor
    · intro hc
      exact absurd (Res.ok_inj hc).symm hke
    · intro hc
      rw [hall ⟨x, y⟩ hm] at hc
      exact absurd (Res.ok_inj hc).symm hkt
  · rw [if_neg hm]

/-- The removal pass cannot touch a kind of census exactly 1: its flood
components are monochromatic, and a cleared component of the kind itself
would have at least 2 cells. -/
theorem removeStep_count1 {g : Grid} {ch : Bool} {y x : Int} {g' : Grid} {ch' : Bool}
    (hw : Wf g) (h : removeStep g ch y x = .ok (g', ch'))
    {k : Tile} (hke : isErasable k = true) (h1 : kindCount g k = 1) :
    kindCount g' k = 1 := by
  rcases removeStep_elim h with ⟨t, _, _, rfl, _⟩ | ⟨t, s, _, _, _, _, rfl, _⟩ |
    ⟨t, s, ht, he, hs, hlen, hclear, _⟩
  · exact h1
  · exact h1
  · have hall : ∀ p ∈ s, pfGet g p.1 p.2 = .ok t := by
      intro p hp
      rcases (ext_props hs).2.1 p hp with hc | hc
      · exact absurd hc (List.not_mem_nil p)
      · exact hc
    have hkt : k ≠ t := by
      intro hkt
      subst hkt
      have hinner : ∀ p ∈ s, inner p.1 p.2 :=
        ext_inner hw (fun q hq => absurd hq (List.not_mem_nil q)) hs
      have hnd : s.Nodup := (ext_props hs).2.2 List.nodup_nil
      have hge := countIn_ge hnd (fun p hp => ⟨mem_playPos.mpr (hinner p hp), hall p hp⟩)
      unfold kindCount at h1
      omega
    have hke' : k ≠ tileEmpty := by
      obtain ⟨hk0, hk7⟩ := erasable_iff.mp hke
      have H : ∀ k' : Int, 0 ≤ k' → k' ≤ 7 → k' ≠ 11 := by
        intro k' h0 h7
        omega
      exact H k hk0 hk7
    unfold kindCount at h1 ⊢
    rw [clearCells_count hclear hall hkt hke' playPos]
    exact h1

theorem removeTiles_count1 {g g' : Grid} {ch' : Bool} (hw : Wf g)
    (h : removeTiles g = .ok (g', ch'))
    {k : Tile} (hke : isErasable k = true) (h1 : kindCount g k = 1) :
    Wf g' ∧ kindCount g' k = 1 := by
  unfold removeTiles at h
  exact foldSt_invP
    (fun st : Grid × Bool => Wf st.1 ∧ kindCount st.1 k = 1)
    (by
      rintro ⟨g1, ch1⟩ yy hyy hP ⟨g2, ch2⟩ hstep
      obtain ⟨hyy1, hyy2⟩ := mem_upList.mp hyy
      refine foldSt_invP (fun st : Grid × Bool => Wf st.1 ∧ kindCount st.1 k = 1) ?_ hP hstep
      rintro ⟨ga, cha⟩ xx hxx ⟨hwa, hca⟩ ⟨gb, chb⟩ hstepb
      obtain ⟨hxx1, hxx2⟩ := mem_upList.mp hxx
      obtain ⟨hwb, _⟩ := removeStep_pres hwa hstepb hyy1 (by omega) hxx1 (by omega)
      exact ⟨hwb, removeStep_count1 hwa hstepb hke hca⟩)
    ⟨hw, h1⟩ h

/-- Gravity moves tiles within their columns, so it preserves every kind
census of the whole play area. -/
theorem dropTiles_kindCount {g g' : Grid} {ch' : Bool} (hw : Wf g)
    (h : dropTiles g = .ok (g', ch')) (k : Tile) :
    Wf g' ∧ kindCount g' k = kindCount g k := by
  have hcl : ∀ x y1 y2 : Int, 0 ≤ y1 → y1 ≤ 11 → 0 ≤ y2 → y2 ≤ 11 →
      (((x, y1) : Pos) ∈ playPos ↔ ((x, y2) : Pos) ∈ playPos) := by
    intro x y1 y2 hy10 hy11 hy20 hy21
    rw [mem_playPos, mem_playPos]
    show inner x y1 ↔ inner x y2
    unfold inner
    constructor <;> (rintro ⟨h1, h2, _, _⟩; exact ⟨h1, h2, by omega, by omega⟩)
  have H := dropTiles_count hw h playPos playPos_nodup hcl
  exact ⟨H.1, H.2 k⟩

theorem applyLoop_count1 : ∀ {n : Nat} {g g' : Grid}, Wf g → applyLoop n g = .ok g' →
    ∀ {k : Tile}, isErasable k = true → kindCount g k = 1 → kindCount g' k = 1 := by
  intro n
  induction n with
  | zero => intro g g' _ h; simp [applyLoop] at h
  | succ n ih =>
    intro g g' hw h k hke h1
    unfold applyLoop at h
    cases hd : dropTiles g with
    | oob => rw [hd] at h; simp at h
    | fuel => rw [hd] at h; simp at h
    | ok st =>
      obtain ⟨g1, ch1⟩ := st
      rw [hd] at h
      simp only [Res.bind_ok] at h
      obtain ⟨hw1, hc1⟩ := dropTiles_kindCount hw hd k
      rw [h1] at hc1
      cases ch1 with
      | true => exact ih hw1 h hke hc1
      | false =>
        simp only [Bool.false_eq_true, if_false] at h
        cases hr : removeTiles g1 with
        | oob => rw [hr] at h; simp at h
        | fuel => rw [hr] at h; simp at h
        | ok st2 =>
          obtain ⟨g2, ch2⟩ := st2
          rw [hr] at h
          simp only [Res.bind_ok] at h
          obtain ⟨hw2, hc2⟩ := removeTiles_count1 hw1 hr hke hc1
          cases ch2 with
          | true => exact ih hw2 h hke hc2
          | false =>
            simp only [Bool.false_eq_true, if_false] at h
            have := Res.pure_elim h
            subst this
            exact hc2

/-- One successful `apply` of a generator-produced move on a good board
preserves a kind census of exactly 1: the slide moves a tile between two
play-area cells (destination previously Empty), and the stabilization
passes preserve the census of a kind with a single cell. -/
theorem apply_count1 {pf : Playfield} {m : Move} {fuel : Nat} {ms : List Move} {pf' : Playfield}
    (hg : Good pf.tiles) (hms : possibleMoves pf.tiles = .ok ms) (hm : m ∈ ms)
    (happ : apply pf m fuel = .ok pf') {k : Tile} (hke : isErasable k = true)
    (h1 : kindCount pf.tiles k = 1) : kindCount pf'.tiles k = 1 := by
  obtain ⟨t, g1, g2, ht, hs1, hs2, hloop, _⟩ := apply_elim happ
  obtain ⟨tm, hY0, hY1, hX0, hX1, _, _, _⟩ := (possibleMoves_spec _ _ m hms).1.mp hm
  have hEmpty := (possibleMoves_spec _ _ m hms).2 hm
  obtain ⟨hT0, hT1⟩ := good_col_inner hg hY0 hY1 hEmpty
  have hw1 := hg.1.pfSet hs1
  have hw2 := hw1.pfSet hs2
  have hsrc : ((m.fromX, m.fromY) : Pos) ∈ playPos := mem_playPos.mpr ⟨hX0, hX1, hY0, hY1⟩
  have hdst : ((m.toX, m.fromY) : Pos) ∈ playPos := mem_playPos.mpr ⟨hT0, hT1, hY0, hY1⟩
  have hu : pfGet g1 m.toX m.fromY = .ok tileEmpty := by
    rw [pfGet_pfSet hs1]
    by_cases hc : m.toX = m.fromX ∧ m.fromY = m.fromY
    · rw [if_pos hc]
    · rw [if_neg hc]
      exact hEmpty
  have eq1 := countIn_set playPos_nodup hs1 ht k
  have eq2 := countIn_set playPos_nodup hs2 hu k
  have hek : ¬(tileEmpty = k) := by
    obtain ⟨hk0, hk7⟩ := erasable_iff.mp hke
    have H : ∀ k' : Int, 0 ≤ k' → k' ≤ 7 → ¬((11 : Int) = k') := by
      intro k' h0 h7
      omega
    exact H k hk0 hk7
  have hC : countIn playPos g2 k = countIn playPos pf.tiles k := by
    by_cases htk : t = k
    · rw [if_pos ⟨hsrc, htk⟩, if_neg (fun hc => hek hc.2)] at eq1
      rw [if_neg (fun hc => hek hc.2), if_pos ⟨hdst, htk⟩] at eq2
      omega
    · rw [if_neg (fun hc => htk hc.2), if_neg (fun hc => hek hc.2)] at eq1
      rw [if_neg (fun hc => hek hc.2), if_neg (fun hc => htk hc.2)] at eq2
      omega
  have h2 : kindCount g2 k = 1 := by
    unfold kindCount at h1 ⊢
    rw [hC]
    exact h1
  exact applyLoop_count1 hw2 hloop hke h2

-- The census fold of `isSolvable`, related to `countIn`.

theorem solvableCnts {g : Grid} : ∀ (l : List Pos) (cnts0 cnts' : Tile → Nat),
    foldSt (fun (cnts : Tile → Nat) p => do
      let t ← pfGet g p.1 p.2
      if tile0 ≤ t ∧ t ≤ tile7 then pure (fun k => if k = t then cnts k + 1 else cnts k)
      else pure cnts) l cnts0 = .ok cnts' →
    ∀ k, tile0 ≤ k → k ≤ tile7 → cnts' k = cnts0 k + countIn l g k := by
  intro l
  induction l with
  | nil =>
    intro cnts0 cnts' h k _ _
    have he := Res.pure_elim h
    subst he
    simp [countIn]
  | cons p ps ih =>
    intro cnts0 cnts' h k hk0 hk7
    obtain ⟨cnts1, hstep, hrest⟩ := Res.ok_of_bind_ok h
    obtain ⟨t, ht, hstep⟩ := Res.ok_of_bind_ok hstep
    rw [countIn_cons]
    by_cases hrange : tile0 ≤ t ∧ t ≤ tile7
    · rw [if_pos hrange] at hstep
      have he := Res.pure_elim hstep
      subst he
      have IH := ih _ cnts' hrest k hk0 hk7
      by_cases hkt : k = t
      · rw [if_pos (by rw [ht, hkt])]
        rw [IH, if_pos hkt]
        omega
      · rw [if_neg (by rw [ht]; intro hc; exact hkt (Res.ok_inj hc).symm)]
        rw [IH, if_neg hkt]
        omega
    · rw [if_neg hrange] at hstep
      have he := Res.pure_elim hstep
      subst he
      have IH := ih _ cnts' hrest k hk0 hk7
      rw [if_neg (by rw [ht]; intro hc; exact hrange ((Res.ok_inj hc) ▸ ⟨hk0, hk7⟩))]
      rw [IH]
      omega

/-- The boolean result of a successful `isSolvable` is `false` exactly
when some erasable kind occurs on exactly one play-area cell. -/
theorem isSolvable_false_iff {g : Grid} {b : Bool} (h : isSolvable g = .ok b) :
    (b = false ↔ ∃ k, tile0 ≤ k ∧ k ≤ tile7 ∧ kindCount g k = 1) := by
  unfold isSolvable at h
  obtain ⟨cnts, hf, hpure⟩ := Res.ok_of_bind_ok h
  have hb := Res.pure_elim hpure
  have hcnt : ∀ k, tile0 ≤ k → k ≤ tile7 → cnts k = kindCount g k := by
    intro k hk0 hk7
    have H := solvableCnts playPos (fun _ => 0) cnts hf k hk0 hk7
    unfold kindCount
    rw [H]
    simp
  constructor
  · intro hbf
    rw [hbf] at hb
    obtain ⟨k, hk, hpk⟩ := List.all_eq_false.mp hb
    obtain ⟨hk0, hk8⟩ := mem_upList.mp hk
    have hk7 : k ≤ tile7 := by
      have H : ∀ k' : Int, k' < 8 → k' ≤ 7 := by
        intro k' h8
        omega
      exact H k hk8
    refine ⟨k, hk0, hk7, ?_⟩
    rw [← hcnt k hk0 hk7]
    simpa using hpk
  · rintro ⟨k, hk0, hk7, hkc⟩
    rw [← hb]
    apply List.all_eq_false.mpr
    refine ⟨k, mem_upList.mpr ⟨hk0, ?_⟩, ?_⟩
    · have H : ∀ k' : Int, k' ≤ 7 → k' < 8 := by
        intro k' h7
        omega
      exact H k hk7
    · rw [← hcnt k hk0 hk7] at hkc
      simp [hkc]

-- The scan of `isSolved`, once false, stays false.

theorem isSolvedFold_false {g : Grid} : ∀ (l : List Pos) {b' : Bool},
    foldSt (fun b p => do
      let t ← pfGet g p.1 p.2
      pure (b && !(tile0 ≤ t && t ≤ tile7))) l false = .ok b' → b' = false := by
  intro l
  induction l with
  | nil =>
    intro b' h
    exact (Res.pure_elim h).symm
  | cons p ps ih =>
    intro b' h
    obtain ⟨b1, hstep, hrest⟩ := Res.ok_of_bind_ok h
    obtain ⟨t, ht, hstep⟩ := Res.ok_of_bind_ok hstep
    have hb1 := Res.pure_elim hstep
    rw [Bool.false_and] at hb1
    rw [← hb1] at hrest
    exact ih hrest

/-- If some scanned cell holds an erasable-range tile, the `isSolved`
scan reports `false`, whatever the initial accumulator. -/
theorem isSolvedFold_mem {g : Grid} {x y : Int} {k : Tile} (hget : pfGet g x y = .ok k)
    (hk0 : tile0 ≤ k) (hk7 : k ≤ tile7) :
    ∀ (l : List Pos) (b0 : Bool) {b' : Bool}, ((x, y) : Pos) ∈ l →
    foldSt (fun b p => do
      let t ← pfGet g p.1 p.2
      pure (b && !(tile0 ≤ t && t ≤ tile7))) l b0 = .ok b' → b' = false := by
  intro l
  induction l with
  | nil =>
    intro b0 b' hmem
    exact absurd hmem (List.not_mem_nil _)
  | cons p ps ih =>
    intro b0 b' hmem h
    obtain ⟨b1, hstep, hrest⟩ := Res.ok_of_bind_ok h
    obtain ⟨t, ht, hstep⟩ := Res.ok_of_bind_ok hstep
    have hb1 := Res.pure_elim hstep
    rcases List.mem_cons.mp hmem with hpe | hmem'
    · have h2 : pfGet g x y = .ok t := by
        rw [← hpe] at ht
        exact ht
      have hkt : k = t := by
        rw [hget] at h2
        exact Res.ok_inj h2
      subst hkt
      have hb1' : b1 = false := by
        rw [← hb1]
        simp [hk0, hk7]
      rw [hb1'] at hrest
      exact isSolvedFold_false ps hrest
    · exact ih b1 hmem' hrest

/-- A board with an erasable-range tile on some play-area cell is not
solved (whenever `isSolved` returns at all). -/
theorem isSolved_false_of {g : Grid} {x y : Int} {k : Tile} {b : Bool}
    (hget : pfGet g x y = .ok k) (hin : inner x y)
    (hk0 : tile0 ≤ k) (hk7 : k ≤ tile7) (h : isSolved g = .ok b) : b = false := by
  unfold isSolved at h
  exact isSolvedFold_mem hget hk0 hk7 playPos true (mem_playPos.mpr hin) h

/-- C7: unsolvability monotonicity — if `isSolvable` reports false on a
good board (some erasable kind occurs on exactly one play-area cell), then
every board reachable from it by finitely many successful `apply` calls
with generator-produced moves still has an erasable kind of census exactly
1, and in particular is never solved: whenever `isSolved` returns on a
descendant, it returns false. -/
theorem unsolvable_monotone {pf pf' : Playfield} (hg : Good pf.tiles)
    (hsv : isSolvable pf.tiles = .ok false) (hr : ReachesVia pf pf') :
    (∃ k, tile0 ≤ k ∧ k ≤ tile7 ∧ kindCount pf'.tiles k = 1) ∧
    ∀ b, isSolved pf'.tiles = .ok b → b = false := by
  obtain ⟨k, hk0, hk7, hkc⟩ := (isSolvable_false_iff hsv).mp rfl
  have hke : isErasable k = true := erasable_iff.mpr ⟨hk0, hk7⟩
  have main : Good pf'.tiles ∧ kindCount pf'.tiles k = 1 := by
    induction hr with
    | refl => exact ⟨hg, hkc⟩
    | step hr1 hms hm happ ih =>
      exact ⟨(apply_good ih.1 hms hm happ).1, apply_count1 ih.1 hms hm happ hke ih.2⟩
  refine ⟨⟨k, hk0, hk7, main.2⟩, ?_⟩
  intro b hb
  have hpos : 0 < countIn playPos pf'.tiles k := by
    have hm2 := main.2
    unfold kindCount at hm2
    omega
  obtain ⟨p, hp, hpk⟩ := countIn_pos hpos
  exact isSolved_false_of hpk (mem_playPos.mp hp) hk0 hk7 hb

set_option maxRecDepth 8000 in
/-- Witness for C7 at a concrete input: the Heart level holds a unique
Heart, so `isSolvable` reports false, and the board — reachable from
itself by the empty move sequence — is not solved. -/
theorem unsolvable_monotone_witness :
    (∃ k, tile0 ≤ k ∧ k ≤ tile7 ∧ kindCount heartPf.tiles k = 1) ∧
    ∀ b, isSolved heartPf.tiles = .ok b → b = false :=
  unsolvable_monotone ⟨by decide, borderOK_of_b (by decide)⟩ (by decide) ReachesVia.refl

-- ================================================
-- Claim C9: the search — boundedness of every stored tile value

theorem BoundedG.get {g : Grid} {x y : Int} {t : Tile}
    (hb : BoundedG g) (h : pfGet g x y = .ok t) : TileOK t := by
  obtain ⟨row, _, _, hrow, hu⟩ := rawGet_elim h
  exact hb.2 row (List.getElem?_mem hrow) t (List.getElem?_mem hu)

theorem boundedG_of_get {g : Grid} (hw : Wf g)
    (h : ∀ x y t, pfGet g x y = .ok t → TileOK t) : BoundedG g := by
  refine ⟨hw, ?_⟩
  intro row hrow t htrow
  obtain ⟨i, hi, hrowi⟩ := List.getElem_of_mem hrow
  obtain ⟨j, hj, htj⟩ := List.getElem_of_mem htrow
  have hrow? : g[((i : Int)).toNat]? = some row := by
    rw [Int.toNat_natCast, List.getElem?_eq_getElem hi, hrowi]
  have hlen : ((j : Int)).toNat < row.length := by
    rw [Int.toNat_natCast]
    exact hj
  have hget := rawGet_intro (Int.natCast_nonneg i) (Int.natCast_nonneg j) hrow? hlen
  have hval : row[((j : Int)).toNat] = t := by
    simp only [Int.toNat_natCast]
    exact htj
  rw [hval] at hget
  apply h ((j : Int) - 1) ((i : Int) - 1) t
  show rawGet g ((i : Int) - 1 + 1) ((j : Int) - 1 + 1) = .ok t
  rw [Int.sub_add_cancel, Int.sub_add_cancel]
  exact hget

theorem BoundedG.setTile {g g' : Grid} {x y : Int} {v : Tile}
    (hb : BoundedG g) (hv : TileOK v) (h : pfSet g x y v = .ok g') : BoundedG g' := by
  refine boundedG_of_get (hb.1.pfSet h) ?_
  intro x' y' t ht
  rw [pfGet_pfSet h x' y'] at ht
  by_cases hc : x' = x ∧ y' = y
  · rw [if_pos hc] at ht
    exact (Res.ok_inj ht) ▸ hv
  · rw [if_neg hc] at ht
    exact hb.get ht

theorem dropStep_bounded {g : Grid} {ch : Bool} {y x : Int} {g' : Grid} {ch' : Bool}
    (hb : BoundedG g) (h : dropStep g ch y x = .ok (g', ch')) : BoundedG g' := by
  rcases dropStep_elim h with ⟨t, _, _, rfl, _⟩ | ⟨t, b, _, _, _, _, rfl, _⟩ |
    ⟨t, y2, g1, ht, _, _, _, hg1, hg2, _⟩
  · exact hb
  · exact hb
  · exact (hb.setTile (by decide) hg1).setTile (hb.get ht) hg2

theorem dropTiles_bounded {g g' : Grid} {ch' : Bool}
    (hb : BoundedG g) (h : dropTiles g = .ok (g', ch')) : BoundedG g' := by
  unfold dropTiles at h
  exact foldSt_invP (fun st : Grid × Bool => BoundedG st.1)
    (by
      rintro ⟨g1, ch1⟩ yy _ hP ⟨g2, ch2⟩ hstep
      refine foldSt_invP (fun st : Grid × Bool => BoundedG st.1) ?_ hP hstep
      rintro ⟨ga, cha⟩ xx _ hba ⟨gb, chb⟩ hstepb
      exact dropStep_bounded hba hstepb)
    hb h

theorem clearCells_bounded {s : List Pos} {g g' : Grid}
    (hb : BoundedG g) (h : clearCells s g = .ok g') : BoundedG g' := by
  unfold clearCells at h
  exact foldSt_invP BoundedG
    (by
      intro ga p _ hba gb hstep
      exact hba.setTile (by decide) hstep)
    hb h

theorem removeStep_bounded {g : Grid} {ch : Bool} {y x : Int} {g' : Grid} {ch' : Bool}
    (hb : BoundedG g) (h : removeStep g ch y x = .ok (g', ch')) : BoundedG g' := by
  rcases removeStep_elim h with ⟨t, _, _, rfl, _⟩ | ⟨t, s, _, _, _, _, rfl, _⟩ |
    ⟨t, s, _, _, _, _, hclear, _⟩
  · exact hb
  · exact hb
  · exact clearCells_bounded hb hclear

theorem removeTiles_bounded {g g' : Grid} {ch' : Bool}
    (hb : BoundedG g) (h : removeTiles g = .ok (g', ch')) : BoundedG g' := by
  unfold removeTiles at h
  exact foldSt_invP (fun st : Grid × Bool => BoundedG st.1)
    (by
      rintro ⟨g1, ch1⟩ yy _ hP ⟨g2, ch2⟩ hstep
      refine foldSt_invP (fun st : Grid × Bool => BoundedG st.1) ?_ hP hstep
      rintro ⟨ga, cha⟩ xx _ hba ⟨gb, chb⟩ hstepb
      exact removeStep_bounded hba hstepb)
    hb h

theorem applyLoop_bounded : ∀ {n : Nat} {g g' : Grid}, BoundedG g → applyLoop n g = .ok g' →
    BoundedG g' := by
  intro n
  induction n with
  | zero => intro g g' _ h; simp [applyLoop] at h
  | succ n ih =>
    intro g g' hb h
    unfold applyLoop at h
    cases hd : dropTiles g with
    | oob => rw [hd] at h; simp at h
    | fuel => rw [hd] at h; simp at h
    | ok st =>
      obtain ⟨g1, ch1⟩ := st
      rw [hd] at h
      simp only [Res.bind_ok] at h
      have hb1 := dropTiles_bounded hb hd
      cases ch1 with
      | true => exact ih hb1 h
      | false =>
        simp only [Bool.false_eq_true, if_false] at h
        cases hr : removeTiles g1 with
        | oob => rw [hr] at h; simp at h
        | fuel => rw [hr] at h; simp at h
        | ok st2 =>
          obtain ⟨g2, ch2⟩ := st2
          rw [hr] at h
          simp only [Res.bind_ok] at h
          have hb2 := removeTiles_bounded hb1 hr
          cases ch2 with
          | true => exact ih hb2 h
          | false =>
            simp only [Bool.false_eq_true, if_false] at h
            have := Res.pure_elim h
            subst this
            exact hb2

theorem apply_bounded {pf : Playfield} {m : Move} {fuel : Nat} {pf' : Playfield}
    (hb : BoundedG pf.tiles) (h : apply pf m fuel = .ok pf') : BoundedG pf'.tiles := by
  obtain ⟨t, g1, g2, ht, hs1, hs2, hloop, _⟩ := apply_elim h
  exact applyLoop_bounded ((hb.setTile (by decide) hs1).setTile (hb.get ht) hs2) hloop

-- The encoding is injective on bounded boards, bounding the visited-set

theorem encGrid_inj {g1 g2 : Grid} (h1 : BoundedG g1) (h2 : BoundedG g2)
    (he : encGrid g1 = encGrid g2) : g1 = g2 := by
  have hl1 : g1.length = 14 := h1.1.1
  have hl2 : g2.length = 14 := h2.1.1
  have key : ∀ a b : Int, 0 ≤ a → a ≤ 11 → 0 ≤ b → b ≤ 11 →
      a.toNat % 12 = b.toNat % 12 → a = b := by
    intro a b ha0 ha1 hb0 hb1 hab
    omega
  apply List.ext_getElem (by omega)
  intro i hi1 hi2
  have hi14 : i < 14 := by omega
  have hr1 : g1[i].length = 14 := h1.1.2 _ (List.getElem_mem hi1)
  have hr2 : g2[i].length = 14 := h2.1.2 _ (List.getElem_mem hi2)
  apply List.ext_getElem (by omega)
  intro j hj1 hj2
  have hj14 : j < 14 := by omega
  have hij := congrFun (congrFun he ⟨i, hi14⟩) ⟨j, hj14⟩
  have hv : ((g1.getD i []).getD j tile0).toNat % 12 =
      ((g2.getD i []).getD j tile0).toNat % 12 := congrArg Fin.val hij
  rw [List.getD_eq_getElem g1 [] hi1, List.getD_eq_getElem g2 [] hi2,
    List.getD_eq_getElem _ tile0 hj1, List.getD_eq_getElem _ tile0 hj2] at hv
  have ht1 : TileOK (g1[i][j]) := h1.2 _ (List.getElem_mem hi1) _ (List.getElem_mem hj1)
  have ht2 : TileOK (g2[i][j]) := h2.2 _ (List.getElem_mem hi2) _ (List.getElem_mem hj2)
  exact key _ _ ht1.1 ht1.2 ht2.1 ht2.2 hv

theorem seen_le_card {l : List Grid} (hnd : l.Nodup) (hb : ∀ g ∈ l, BoundedG g) :
    l.length ≤ gridCard := by
  have hinj : ∀ x ∈ l, ∀ y ∈ l, encGrid x = encGrid y → x = y := by
    intro a ha b hbm he
    exact encGrid_inj (hb a ha) (hb b hbm) he
  have hnd2 : (l.map encGrid).Nodup := List.Nodup.map_on hinj hnd
  have hcard := List.Nodup.length_le_card hnd2
  rw [List.length_map] at hcard
  exact hcard

-- One inner-loop body preserves the invariant and never raises the potential

theorem searchMove_inv {fuel : Nat} {pf : Playfield} {st : Search} {m : Move} {st' : Search}
    (h : searchMove fuel pf st m = .ok st')
    (hb : BoundedG pf.tiles) (hI : SearchInv st) :
    SearchInv st' ∧ searchPot st' ≤ searchPot st := by
  unfold searchMove at h
  obtain ⟨pf2, happ, h⟩ := Res.ok_of_bind_ok h
  have hb2 : BoundedG pf2.tiles := apply_bounded hb happ
  obtain ⟨hnd, hbs, hbq⟩ := hI
  by_cases hseen : pf2.tiles ∈ st.seen
  · rw [if_pos hseen] at h
    have he := Res.pure_elim h
    subst he
    exact ⟨⟨hnd, hbs, hbq⟩, Nat.le_refl _⟩
  · rw [if_neg hseen] at h
    obtain ⟨sv, hsv, h⟩ := Res.ok_of_bind_ok h
    have hnd2 : (pf2.tiles :: st.seen).Nodup := List.nodup_cons.mpr ⟨hseen, hnd⟩
    have hbs2 : ∀ g ∈ pf2.tiles :: st.seen, BoundedG g := by
      intro g hg
      rcases List.mem_cons.mp hg with rfl | hg'
      · exact hb2
      · exact hbs g hg'
    have hlen : st.seen.length + 1 ≤ gridCard := by
      have hc := seen_le_card hnd2 hbs2
      rw [List.length_cons] at hc
      exact hc
    by_cases hsvf : sv = false
    · rw [if_pos hsvf] at h
      have he := Res.pure_elim h
      subst he
      refine ⟨⟨hnd2, hbs2, hbq⟩, ?_⟩
      show st.queue.length + 2 * (gridCard - (pf2.tiles :: st.seen).length) ≤
        st.queue.length + 2 * (gridCard - st.seen.length)
      rw [List.length_cons]
      omega
    · rw [if_neg hsvf] at h
      obtain ⟨sd, hsd, h⟩ := Res.ok_of_bind_ok h
      have he := Res.pure_elim h
      subst he
      refine ⟨⟨hnd2, hbs2, ?_⟩, ?_⟩
      · intro p hp
        rcases List.mem_append.mp hp with hp' | hp'
        · exact hbq p hp'
        · rw [List.mem_singleton.mp hp']
          exact hb2
      · show (st.queue ++ [pf2]).length + 2 * (gridCard - (pf2.tiles :: st.seen).length) ≤
          st.queue.length + 2 * (gridCard - st.seen.length)
        simp only [List.length_append, List.length_cons, List.length_nil]
        omega

theorem searchIter_inv {fuel : Nat} {st : Search} {pf : Playfield} {rest : List Playfield}
    {st' : Search} (h : searchIter fuel st pf rest = .ok st')
    (hb : BoundedG pf.tiles) (hnd : st.seen.Nodup) (hbs : ∀ g ∈ st.seen, BoundedG g)
    (hbq : ∀ p ∈ rest, BoundedG p.tiles) :
    SearchInv st' ∧ searchPot st' ≤ rest.length + 2 * (gridCard - st.seen.length) := by
  unfold searchIter at h
  obtain ⟨ms, hms, h⟩ := Res.ok_of_bind_ok h
  have h0 : SearchInv (⟨rest, st.seen, st.sol⟩ : Search) ∧
      searchPot ⟨rest, st.seen, st.sol⟩ ≤ rest.length + 2 * (gridCard - st.seen.length) :=
    ⟨⟨hnd, hbs, hbq⟩, Nat.le_refl _⟩
  refine foldSt_invP
    (fun s : Search => SearchInv s ∧ searchPot s ≤ rest.length + 2 * (gridCard - st.seen.length))
    ?_ h0 h
  intro s a _ hP s' hstep
  obtain ⟨hPI, hPle⟩ := hP
  obtain ⟨hI', hle'⟩ := searchMove_inv hstep hb hPI
  exact ⟨hI', Nat.le_trans hle' hPle⟩

-- The outer loop stabilizes after at most `searchPot` iterations

theorem searchLoop_congr : ∀ {n m fuel : Nat} {st : Search}, SearchInv st →
    searchPot st < n → searchPot st < m →
    searchLoop fuel n st = searchLoop fuel m st := by
  intro n
  induction n with
  | zero =>
    intro m fuel st _ hn _
    exact absurd hn (Nat.not_lt_zero _)
  | succ n ih =>
    intro m fuel st hI hn hm
    obtain ⟨m', rfl⟩ : ∃ m', m = m' + 1 := ⟨m - 1, by omega⟩
    show searchLoop fuel (n + 1) st = searchLoop fuel (m' + 1) st
    unfold searchLoop
    by_cases hsol : st.sol.isSome
    · rw [if_pos hsol, if_pos hsol]
    · rw [if_neg hsol, if_neg hsol]
      cases hq : st.queue with
      | nil => rfl
      | cons pf rest =>
        have hbpf : BoundedG pf.tiles :=
          hI.2.2 pf (by rw [hq]; exact List.mem_cons_self pf rest)
        have hrest : ∀ p ∈ rest, BoundedG p.tiles := by
          intro p hp
          exact hI.2.2 p (by rw [hq]; exact List.mem_cons_of_mem pf hp)
        show (do
            let st2 ← searchIter fuel st pf rest
            searchLoop fuel n st2) = (do
            let st2 ← searchIter fuel st pf rest
            searchLoop fuel m' st2)
        cases hit : searchIter fuel st pf rest with
        | oob => rfl
        | fuel => rfl
        | ok st2 =>
          simp only [Res.bind_ok]
          obtain ⟨hI2, hle⟩ := searchIter_inv hit hbpf hI.1 hI.2.1 hrest
          have hpot : searchPot st = rest.length + 1 + 2 * (gridCard - st.seen.length) := by
            show st.queue.length + 2 * (gridCard - st.seen.length) = _
            rw [hq, List.length_cons]
          exact ih hI2 (by omega) (by omega)

theorem searchLoop_sol : ∀ {n fuel : Nat} {st st' : Search},
    searchLoop fuel n st = .ok st' → st'.sol.isSome = true ∨ st'.queue = [] := by
  intro n
  induction n with
  | zero =>
    intro fuel st st' h
    simp [searchLoop] at h
  | succ n ih =>
    intro fuel st st' h
    unfold searchLoop at h
    by_cases hsol : st.sol.isSome
    · rw [if_pos hsol] at h
      have he := Res.pure_elim h
      subst he
      exact Or.inl hsol
    · rw [if_neg hsol] at h
      cases hq : st.queue with
      | nil =>
        rw [hq] at h
        have he := Res.pure_elim h
        subst he
        exact Or.inr hq
      | cons pf rest =>
        rw [hq] at h
        obtain ⟨st2, hit, h⟩ := Res.ok_of_bind_ok h
        exact ih h

/-- C9 (amended): on any search state satisfying the loop invariant
(duplicate-free visited set of bounded grids, bounded frontier boards —
the entry state of `main` qualifies), the outer search loop makes at most
`searchPot` iterations: its result is the same at every iteration bound
beyond that, and whenever the loop returns a final state normally, that
state carries a found solution or an empty frontier.  (The dichotomy of
the original claim is incomplete: the search can also abort with an
index-out-of-range panic raised inside `apply`, see the counterexample —
and with insufficient per-`apply` stabilization fuel the model reports
fuel exhaustion instead.) -/
theorem search_termination (fuel : Nat) (st : Search) (hI : SearchInv st) :
    (∀ n, searchPot st < n →
      searchLoop fuel n st = searchLoop fuel (searchPot st + 1) st) ∧
    ∀ n st', searchLoop fuel n st = .ok st' → st'.sol.isSome = true ∨ st'.queue = [] := by
  constructor
  · intro n hn
    exact searchLoop_congr hI hn (Nat.lt_succ_self _)
  · intro n st' h
    exact searchLoop_sol h

set_option maxRecDepth 8000 in
/-- Counterexample to C9 as stated: on the valid Heart level the search
neither finds a solution nor empties its frontier — the very first
`apply` call walks the flood fill off the 14×14 array and the whole
search call aborts with an index-out-of-range panic (`.oob`), at any
iteration bound. -/
theorem search_panics :
    searchLoop 20 2 (searchInit heartPf) = .oob ∧
    searchLoop 20 50 (searchInit heartPf) = .oob :=
  ⟨by decide, by decide⟩

set_option maxRecDepth 8000 in
/-- Witness for C9 (amended) at a concrete input: the entry state of the
Heart level satisfies the loop invariant, so the theorem applies to it. -/
theorem search_termination_witness :
    (∀ n, searchPot (searchInit heartPf) < n →
      searchLoop 20 n (searchInit heartPf) =
        searchLoop 20 (searchPot (searchInit heartPf) + 1) (searchInit heartPf)) ∧
    ∀ n st', searchLoop 20 n (searchInit heartPf) = .ok st' →
      st'.sol.isSome = true ∨ st'.queue = [] :=
  search_termination 20 (searchInit heartPf) ⟨by decide, by decide, by decide⟩

end Pupu
